import Mathlib

/-!
# Verification of the `mktrain.py` route planner (factorio-space-tools)

Shallow embedding of the graph builder and route planner from `mktrain.py`:
`produce_graph`, `dijkstra`, `_dijkstra_route` and `magic_route_finder`,
together with the static tables `PLACES`, `MHL_LINKS` and `ELEVATORS`.

Python dictionaries are embedded as insertion-ordered association lists
(assignment updates an existing key in place, otherwise appends), the
`heapq` priority queue as a list popped at its lexicographically least
element (which is exactly the element `heappop` returns), and the
unbounded `while` loops as fuel-indexed functions returning `none` when
the fuel runs out.  Exceptions are modelled with an explicit error type:
the code itself only ever raises `KeyError`.
-/

namespace MkTrain

abbrev Node := Nat

/-! ## Association-list operations with Python `dict` semantics -/

/-- `m[k]` lookup: first (= unique) binding of `k`. -/
def alookup {α β : Type} [DecidableEq α] : List (α × β) → α → Option β
  | [], _ => none
  | (k, v) :: r, x => if x = k then some v else alookup r x

/-- `m[k] = v` assignment: replace an existing binding in place, else append. -/
def aset {α β : Type} [DecidableEq α] : List (α × β) → α → β → List (α × β)
  | [], k, v => [(k, v)]
  | (k', v') :: r, k, v => if k' = k then (k, v) :: r else (k', v') :: aset r k v

/-! ## The data model: graphs, tables, link identifiers, errors -/

/-- `{node id: {linked node id: weight}}`, insertion ordered. -/
abbrev Graph := List (Node × List (Node × Int))

def keys (g : Graph) : List Node := g.map Prod.fst

/-- `graph[x][y] = w`.  If `x` is not a key the Python code would raise
`KeyError`; that situation is never reached by the program (all link and
elevator endpoints are declared places), and the model leaves `g` unchanged. -/
def gset : Graph → Node → Node → Int → Graph
  | [], _, _, _ => []
  | (k, inner) :: r, x, y, w =>
    if k = x then (k, aset inner y w) :: r else (k, inner) :: gset r x y w

/-- The static tables the module-level constants provide: `PLACES`
(automation id, human name), `MHL_LINKS` (route number, (place, place,
delta-v)) and `ELEVATORS` (name, bottom id, top id), in source order. -/
structure Tables where
  places : List (Node × String)
  links : List (Nat × Node × Node × Int)
  elevators : List (String × Node × Node)

/-- A link identifier as yielded by `magic_route_finder`: either a numeric
clamp/route number or the string sentinel `'elevator'`. -/
inductive LinkId : Type
  | route (n : Nat)
  | elevator
deriving DecidableEq, Repr

/-- Keys that appear in the `KeyError`s the planner can raise: a place id,
the value `None`, or a `(place, place)` pair. -/
inductive PyKey : Type
  | intKey (n : Node)
  | noneKey
  | pairKey (a b : Node)
deriving DecidableEq, Repr

/-- Errors.  `keyError` is the only error the code raises.
`unreachableDestination`, `invalidPlace` and `inconsistentGraphData` are
modelled from the spec: §7 of the specification names these three
exception types, but no such classes exist anywhere in the source; they
are included only so that statements about them can be written down. -/
inductive PyErr : Type
  | keyError (k : PyKey)
  | unreachableDestination
  | invalidPlace
  | inconsistentGraphData
deriving DecidableEq, Repr

/-! ## The shipped static tables (`mktrain.py` lines 26–66) -/

def PLACES : List (Node × String) :=
  [(587, "Auberge"), (588, "Auberge Orbit"), (1151, "Calidus Outer Belt"),
   (148, "Astermore Orbit"), (200, "Astermore Outer Belt"), (1, "Foenestra"),
   (1139, "Mara"), (1112, "Darkflare"), (564, "Calidus Orbit"),
   (1147, "Njord"), (159, "Ezra"), (160, "Ezra Orbit"),
   (585, "Magaera"), (586, "Magaera Orbit")]

def MHL_LINKS : List (Nat × Node × Node × Int) :=
  [(111, 588, 1151, 2606), (100, 1151, 200, 10918), (102, 200, 148, 8620),
   (999, 1151, 1, 10464), (115, 1139, 1151, 6390), (998, 1, 1112, 10000),
   (120, 588, 564, 7711), (119, 564, 1151, 8817), (118, 588, 1147, 850),
   (101, 200, 160, 6977), (112, 1151, 586, 3006), (113, 588, 586, 400)]

def ELEVATORS : List (String × Node × Node) :=
  [("Auberge", 587, 588), ("Ezra", 159, 160), ("Magaera", 585, 586)]

def shipped : Tables := ⟨PLACES, MHL_LINKS, ELEVATORS⟩

/-! ## `produce_graph` (lines 72–83) -/

def produce_graph (T : Tables) : Graph :=
  let g0 : Graph := T.places.map (fun p => (p.1, []))
  let g1 := T.links.foldl
    (fun g l => gset (gset g l.2.1 l.2.2.1 l.2.2.2) l.2.2.1 l.2.1 l.2.2.2) g0
  T.elevators.foldl
    (fun g e => gset (gset g e.2.1 e.2.2 50) e.2.2 e.2.1 50) g1

/-! ## `dijkstra` (lines 86–105) -/

/-- The mutable state of the `dijkstra` loop.  `dist` and `cf` stand for the
`distances` and `came_from` dictionaries (total functions here: every
node the algorithm ever touches is a key, and `⊤` plays `float('inf')`);
`queue` is the content of the heap. -/
structure DState where
  dist : Node → WithTop Int
  cf : Node → Option Node
  queue : List (Int × Node)

/-- Pointwise update, the effect of `d[k] = v`. -/
def upd {β : Type} (f : Node → β) (k : Node) (v : β) : Node → β :=
  fun x => if x = k then v else f x

/-- Order in which `heapq` compares `(distance, node)` tuples. -/
def qleB (a b : Int × Node) : Bool :=
  decide (a.1 < b.1) || (decide (a.1 = b.1) && decide (a.2 ≤ b.2))

/-- Least element of a nonempty queue, the tuple `heappop` returns. -/
def qminFold (x : Int × Node) (l : List (Int × Node)) : Int × Node :=
  l.foldl (fun m y => if qleB y m then y else m) x

/-- `heapq.heappop`: remove and return the least tuple. -/
def popMin : List (Int × Node) → Option ((Int × Node) × List (Int × Node))
  | [] => none
  | x :: xs =>
    let m := qminFold x xs
    some (m, (x :: xs).erase m)

/-- One relaxation (loop body of `for next_node, weight in ...`):
if `current_distance + weight < distances[next_node]`, update the
distance and predecessor and push the new tentative pair. -/
def relax1 (u : Node) (d : Int) (st : DState) (e : Node × Int) : DState :=
  if ((d + e.2 : Int) : WithTop Int) < st.dist e.1 then
    { dist := upd st.dist e.1 ((d + e.2 : Int) : WithTop Int)
      cf := upd st.cf e.1 (some u)
      queue := (d + e.2, e.1) :: st.queue }
  else st

def relaxAll (u : Node) (d : Int) (a : List (Node × Int)) (st : DState) : DState :=
  a.foldl (relax1 u d) st

/-- The `while queue:` loop, one fuel per iteration (`none` = fuel ran out).
`graph[current_node]` raises `KeyError` when the popped node is not a key. -/
def drun (g : Graph) : Nat → DState → Option (Except PyErr DState)
  | 0, _ => none
  | n + 1, st =>
    match popMin st.queue with
    | none => some (.ok st)
    | some ((d, u), q) =>
      match alookup g u with
      | none => some (.error (.keyError (.intKey u)))
      | some a => drun g n (relaxAll u d a { st with queue := q })

/-- The state after the initialisation lines 91–94. -/
def dinit (s : Node) : DState :=
  { dist := upd (fun _ => (⊤ : WithTop Int)) s ((0 : Int) : WithTop Int)
    cf := fun _ => none
    queue := [(0, s)] }

/-- Key set of the `distances` / `came_from` dictionaries: the graph's keys,
plus the source if it was absent (`distances[node] = 0` inserts it). -/
def dkeys (g : Graph) (s : Node) : List Node :=
  if s ∈ keys g then keys g else keys g ++ [s]

/-! ## `_dijkstra_route` (lines 108–119) -/

/-- The backward walk `while step != starting: yield step; step = came_from[step]`,
accumulating the yielded places (ending first).  When `came_from[step]` is
`None` the Python loop yields `None` and then fails looking up
`came_from[None]`; when `step` is not a key at all the lookup fails with
that key.  An exception discards the generator's prior output. -/
def traceLoop (ks : List Node) (cf : Node → Option Node) (start : Node) :
    Nat → Node → List Node → Option (Except PyErr (List Node))
  | 0, _, _ => none
  | n + 1, step, acc =>
    if step = start then some (.ok (acc ++ [step]))
    else if step ∈ ks then
      match cf step with
      | some u => traceLoop ks cf start n u (acc ++ [step])
      | none => some (.error (.keyError .noneKey))
    else some (.error (.keyError (.intKey step)))

/-- `list(_dijkstra_route(starting, ending))` followed by `route.reverse()`
(lines 145–146): the traced route in start-to-end order. -/
def routeF (T : Tables) (s e : Node) (n : Nat) : Option (Except PyErr (List Node)) :=
  match drun (produce_graph T) n (dinit s) with
  | none => none
  | some (.error er) => some (.error er)
  | some (.ok st) =>
    match traceLoop (dkeys (produce_graph T) s) st.cf s n e [] with
    | none => none
    | some (.error er) => some (.error er)
    | some (.ok l) => some (.ok l.reverse)

/-! ## `magic_route_finder` (lines 122–149) -/

/-- The `link_index` reverse lookup: `{**{(l,r): rt}, **{(r,l): rt},
**{(t,b): 'elevator'}, **{(b,t): 'elevator'}}`, built in that order with
later entries overriding earlier ones. -/
def link_index (T : Tables) : List ((Node × Node) × LinkId) :=
  let m1 := T.links.foldl (fun m l => aset m (l.2.1, l.2.2.1) (LinkId.route l.1)) []
  let m2 := T.links.foldl (fun m l => aset m (l.2.2.1, l.2.1) (LinkId.route l.1)) m1
  let m3 := T.elevators.foldl (fun m e => aset m (e.2.2, e.2.1) LinkId.elevator) m2
  T.elevators.foldl (fun m e => aset m (e.2.1, e.2.2) LinkId.elevator) m3

/-- `steps = [route[i:i+2] ...]; for start, end in steps: yield
link_index[start, end], end` — one hop per consecutive pair of the route,
failing with the pair as key when it is missing from the index. -/
def hopsOf (li : List ((Node × Node) × LinkId)) :
    List Node → Except PyErr (List (LinkId × Node))
  | [] => .ok []
  | [_] => .ok []
  | a :: b :: r =>
    match alookup li (a, b) with
    | some lid =>
      match hopsOf li (b :: r) with
      | .ok h => .ok ((lid, b) :: h)
      | .error er => .error er
    | none => .error (.keyError (.pairKey a b))

/-- `list(magic_route_finder(starting, ending))`. -/
def magic_route_finder (T : Tables) (s e : Node) (n : Nat) :
    Option (Except PyErr (List (LinkId × Node))) :=
  match routeF T s e n with
  | none => none
  | some (.error er) => some (.error er)
  | some (.ok r) => some (hopsOf (link_index T) r)

/-! ## Ground-truth graph notions used by the claims -/

/-- `edgeW g u v = some w` iff the built graph has the directed entry
`graph[u][v] == w`. -/
def edgeW (g : Graph) (u v : Node) : Option Int :=
  (alookup g u).bind (fun a => alookup a v)

/-- `WalkCost g u x c`: some walk in `g` leads from `u` to `x` with total
edge weight `c`. -/
inductive WalkCost (g : Graph) : Node → Node → Int → Prop
  | nil (v : Node) : WalkCost g v v 0
  | cons {u v x : Node} {w c : Int} :
      edgeW g u v = some w → WalkCost g v x c → WalkCost g u x (w + c)

def Reachable (g : Graph) (s v : Node) : Prop := ∃ c, WalkCost g s v c

/-- `d` is the true shortest-path cost from `s` to `v`. -/
def IsShortest (g : Graph) (s v : Node) (d : Int) : Prop :=
  WalkCost g s v d ∧ ∀ c, WalkCost g s v c → d ≤ c

/-- `Chain cf s v l`: following predecessor links from `v` reaches `s`,
visiting exactly the places of `l` (so `l` runs from `v` back to `s`). -/
inductive Chain (cf : Node → Option Node) (s : Node) : Node → List Node → Prop
  | nil : Chain cf s s [s]
  | cons {v u : Node} {l : List Node} :
      cf v = some u → Chain cf s u l → Chain cf s v (v :: l)

/-- `PathCost g l c`: `l` is a nonempty path in `g` whose consecutive pairs
are edges of total weight `c`. -/
inductive PathCost (g : Graph) : List Node → Int → Prop
  | single (v : Node) : PathCost g [v] 0
  | cons {u v : Node} {l : List Node} {w c : Int} :
      edgeW g u v = some w → PathCost g (v :: l) c → PathCost g (u :: v :: l) (w + c)

/-- Executable edge-weight sum along consecutive pairs of a list
(`none` when a pair is not an edge or the list is empty). -/
def pathCost? (g : Graph) : List Node → Option Int
  | [] => none
  | [_] => some 0
  | a :: b :: r =>
    match edgeW g a b, pathCost? g (b :: r) with
    | some w, some c => some (w + c)
    | _, _ => none

/-! ## Well-formedness of graphs and tables -/

/-- What Python guarantees about any dict-of-dicts graph: outer and inner
keys are unique; closedness (every neighbour is itself a key) is what the
relaxation loop needs to avoid `KeyError` on `distances[next_node]`. -/
def GraphWF (g : Graph) : Prop :=
  (keys g).Nodup ∧ (∀ p ∈ g, (p.2.map Prod.fst).Nodup) ∧ (∀ p ∈ g, ∀ e ∈ p.2, e.1 ∈ keys g)

/-- All edge weights of the graph are non-negative. -/
def Nonneg (g : Graph) : Prop := ∀ p ∈ g, ∀ e ∈ p.2, 0 ≤ e.2

instance (g : Graph) : Decidable (GraphWF g) := by
  unfold GraphWF
  infer_instance

instance (g : Graph) : Decidable (Nonneg g) := by
  unfold Nonneg
  infer_instance

/-! ## Lemmas about the association-list operations -/

theorem alookup_mem {α β : Type} [DecidableEq α] {l : List (α × β)} {k : α} {v : β}
    (h : alookup l k = some v) : (k, v) ∈ l := by
  induction l with
  | nil => simp [alookup] at h
  | cons p r ih =>
    obtain ⟨k', v'⟩ := p
    by_cases hk : k = k'
    · subst hk
      simp [alookup] at h
      simp [h]
    · simp [alookup, hk] at h
      exact List.mem_cons_of_mem _ (ih h)

theorem mem_alookup {α β : Type} [DecidableEq α] {l : List (α × β)} {k : α} {v : β}
    (nd : (l.map Prod.fst).Nodup) (h : (k, v) ∈ l) : alookup l k = some v := by
  induction l with
  | nil => simp at h
  | cons p r ih =>
    obtain ⟨k', v'⟩ := p
    simp only [List.map_cons, List.nodup_cons] at nd
    rcases List.mem_cons.mp h with h1 | h1
    · obtain ⟨rfl, rfl⟩ := Prod.mk.injEq .. ▸ h1
      simp_all [alookup]
    · have hk : k ≠ k' := by
        rintro rfl
        exact nd.1 (List.mem_map.mpr ⟨_, h1, rfl⟩)
      simp [alookup, hk]
      exact ih nd.2 h1

theorem alookup_eq_none {α β : Type} [DecidableEq α] {l : List (α × β)} {k : α} :
    alookup l k = none ↔ k ∉ l.map Prod.fst := by
  induction l with
  | nil => simp [alookup]
  | cons p r ih =>
    obtain ⟨k', v'⟩ := p
    by_cases hk : k = k' <;> simp [alookup, hk, ih]

theorem alookup_isSome_of_mem_keys {α β : Type} [DecidableEq α] {l : List (α × β)} {k : α}
    (h : k ∈ l.map Prod.fst) : ∃ v, alookup l k = some v := by
  cases hv : alookup l k with
  | none => exact absurd (alookup_eq_none.mp hv) (not_not_intro h)
  | some v => exact ⟨v, rfl⟩

theorem alookup_aset_self {α β : Type} [DecidableEq α] (l : List (α × β)) (k : α) (v : β) :
    alookup (aset l k v) k = some v := by
  induction l with
  | nil => simp [aset, alookup]
  | cons p r ih =>
    obtain ⟨k', v'⟩ := p
    by_cases hk : k' = k
    · subst hk
      simp [aset, alookup]
    · have hk2 : ¬k = k' := fun h => hk h.symm
      simp [aset, hk, alookup, hk2, ih]

theorem alookup_aset_ne {α β : Type} [DecidableEq α] (l : List (α × β)) (k x : α) (v : β)
    (hx : x ≠ k) : alookup (aset l k v) x = alookup l x := by
  induction l with
  | nil => simp [aset, alookup, hx]
  | cons p r ih =>
    obtain ⟨k', v'⟩ := p
    by_cases hk : k' = k
    · subst hk
      simp [aset, alookup, hx]
    · simp [aset, hk, alookup, ih]

theorem mem_keys_aset {α β : Type} [DecidableEq α] (l : List (α × β)) (k x : α) (v : β) :
    x ∈ (aset l k v).map Prod.fst ↔ x ∈ l.map Prod.fst ∨ x = k := by
  induction l with
  | nil => simp [aset]
  | cons p r ih =>
    obtain ⟨k', v'⟩ := p
    by_cases hk : k' = k
    · subst hk
      simp [aset]
      tauto
    · simp [aset, hk, ih]
      tauto

theorem nodup_keys_aset {α β : Type} [DecidableEq α] {l : List (α × β)} (k : α) (v : β)
    (nd : (l.map Prod.fst).Nodup) : ((aset l k v).map Prod.fst).Nodup := by
  induction l with
  | nil => simp [aset]
  | cons p r ih =>
    obtain ⟨k', v'⟩ := p
    simp only [List.map_cons, List.nodup_cons] at nd
    by_cases hk : k' = k
    · subst hk
      simp only [aset, if_pos rfl, List.map_cons, List.nodup_cons]
      simpa using nd
    · simp only [aset, if_neg hk, List.map_cons, List.nodup_cons]
      refine ⟨fun hmem => ?_, ih nd.2⟩
      rcases (mem_keys_aset r k k' v).mp hmem with h | h
      · exact nd.1 h
      · exact hk h

/-! ## Lemmas about `gset` -/

theorem keys_gset (g : Graph) (x y : Node) (w : Int) : keys (gset g x y w) = keys g := by
  induction g with
  | nil => rfl
  | cons p r ih =>
    obtain ⟨k, inner⟩ := p
    by_cases hk : k = x
    · simp [gset, hk, keys]
    · simp only [gset, if_neg hk, keys, List.map_cons] at ih ⊢
      rw [ih]

theorem alookup_gset_self {g : Graph} {x : Node} (y : Node) (w : Int) {ax : List (Node × Int)}
    (h : alookup g x = some ax) : alookup (gset g x y w) x = some (aset ax y w) := by
  induction g with
  | nil => simp [alookup] at h
  | cons p r ih =>
    obtain ⟨k, inner⟩ := p
    by_cases hk : x = k
    · subst hk
      simp [alookup] at h
      subst h
      simp [gset, alookup]
    · simp [alookup, hk] at h
      have hk2 : ¬k = x := fun hh => hk hh.symm
      simp [gset, hk2, alookup, hk, ih h]

theorem alookup_gset_ne (g : Graph) (x y z : Node) (w : Int) (hz : z ≠ x) :
    alookup (gset g x y w) z = alookup g z := by
  induction g with
  | nil => rfl
  | cons p r ih =>
    obtain ⟨k, inner⟩ := p
    by_cases hk : k = x
    · subst hk
      simp [gset, alookup, hz]
    · by_cases hzk : z = k <;> simp [gset, hk, alookup, hzk, ih]

/-! ## Lemmas about the priority queue -/

theorem qleB_refl (a : Int × Node) : qleB a a = true := by simp [qleB]

theorem qleB_trans {a b c : Int × Node} (h1 : qleB a b = true) (h2 : qleB b c = true) :
    qleB a c = true := by
  obtain ⟨a1, a2⟩ := a
  obtain ⟨b1, b2⟩ := b
  obtain ⟨c1, c2⟩ := c
  simp only [qleB, Bool.or_eq_true, Bool.and_eq_true, decide_eq_true_eq] at h1 h2 ⊢
  rcases h1 with h1 | ⟨h1e, h1n⟩ <;> rcases h2 with h2 | ⟨h2e, h2n⟩
  · left; omega
  · left; omega
  · left; omega
  · right; exact ⟨by omega, le_trans h1n h2n⟩

theorem qleB_total (a b : Int × Node) : qleB a b = true ∨ qleB b a = true := by
  obtain ⟨a1, a2⟩ := a
  obtain ⟨b1, b2⟩ := b
  simp only [qleB, Bool.or_eq_true, Bool.and_eq_true, decide_eq_true_eq]
  rcases lt_trichotomy a1 b1 with h | h | h
  · exact Or.inl (Or.inl h)
  · rcases Nat.le_total a2 b2 with hn | hn
    · exact Or.inl (Or.inr ⟨h, hn⟩)
    · exact Or.inr (Or.inr ⟨h.symm, hn⟩)
  · exact Or.inr (Or.inl h)

theorem qminFold_mem (x : Int × Node) (l : List (Int × Node)) : qminFold x l ∈ x :: l := by
  induction l generalizing x with
  | nil => simp [qminFold]
  | cons y r ih =>
    have hstep : qminFold x (y :: r) = qminFold (if qleB y x then y else x) r := rfl
    rw [hstep]
    rcases List.mem_cons.mp (ih (if qleB y x then y else x)) with h | h
    · rw [h]
      by_cases hq : qleB y x = true
      · simp [hq]
      · simp [hq]
    · exact List.mem_cons_of_mem _ (List.mem_cons_of_mem _ h)

theorem qminFold_le (x : Int × Node) (l : List (Int × Node)) :
    ∀ e ∈ x :: l, qleB (qminFold x l) e = true := by
  induction l generalizing x with
  | nil =>
    intro e he
    simp at he
    simp [qminFold, he, qleB_refl]
  | cons y r ih =>
    intro e he
    have hstep : qminFold x (y :: r) = qminFold (if qleB y x then y else x) r := rfl
    have hminxy : qleB (if qleB y x then y else x) x = true ∧
        qleB (if qleB y x then y else x) y = true := by
      by_cases hq : qleB y x = true
      · exact ⟨by simp [hq], by simp [hq, qleB_refl]⟩
      · refine ⟨by simp [hq, qleB_refl], ?_⟩
        simp [hq]
        exact (qleB_total x y).resolve_right (by simpa using hq)
    rcases List.mem_cons.mp he with rfl | he'
    · rw [hstep]
      exact qleB_trans (ih _ _ (List.mem_cons_self _ _)) hminxy.1
    rcases List.mem_cons.mp he' with rfl | he''
    · rw [hstep]
      exact qleB_trans (ih _ _ (List.mem_cons_self _ _)) hminxy.2
    · rw [hstep]
      exact ih _ _ (List.mem_cons_of_mem _ he'')

theorem popMin_none {q : List (Int × Node)} : popMin q = none ↔ q = [] := by
  cases q <;> simp [popMin]

theorem popMin_spec {q : List (Int × Node)} {m : Int × Node} {r : List (Int × Node)}
    (h : popMin q = some (m, r)) :
    m ∈ q ∧ r = q.erase m ∧ ∀ e ∈ q, qleB m e = true := by
  cases q with
  | nil => simp [popMin] at h
  | cons x xs =>
    simp only [popMin, Option.some.injEq, Prod.mk.injEq] at h
    obtain ⟨rfl, rfl⟩ := h
    exact ⟨qminFold_mem x xs, rfl, qminFold_le x xs⟩

/-! ## Lemmas about edges, walks, paths and predecessor chains -/

theorem edgeW_mem {g : Graph} {u v : Node} {w : Int} (h : edgeW g u v = some w) :
    ∃ a, (u, a) ∈ g ∧ (v, w) ∈ a := by
  unfold edgeW at h
  cases ha : alookup g u with
  | none => rw [ha] at h; simp at h
  | some a =>
    rw [ha] at h
    exact ⟨a, alookup_mem ha, alookup_mem h⟩

theorem edgeW_nonneg {g : Graph} (nn : Nonneg g) {u v : Node} {w : Int}
    (h : edgeW g u v = some w) : 0 ≤ w := by
  obtain ⟨a, hag, hwa⟩ := edgeW_mem h
  exact nn _ hag _ hwa

theorem edgeW_target_mem {g : Graph} (wf : GraphWF g) {u v : Node} {w : Int}
    (h : edgeW g u v = some w) : v ∈ keys g := by
  obtain ⟨a, hag, hwa⟩ := edgeW_mem h
  exact wf.2.2 _ hag _ hwa

theorem edgeW_of_adj {g : Graph} (wf : GraphWF g) {u : Node} {a : List (Node × Int)}
    (ha : alookup g u = some a) {e : Node × Int} (he : e ∈ a) : edgeW g u e.1 = some e.2 := by
  unfold edgeW
  rw [ha]
  exact mem_alookup (wf.2.1 _ (alookup_mem ha)) (by simpa using he)

theorem walkCost_snoc {g : Graph} {s u v : Node} {c w : Int}
    (h : WalkCost g s u c) (he : edgeW g u v = some w) : WalkCost g s v (c + w) := by
  induction h with
  | nil x =>
    have := WalkCost.cons he (WalkCost.nil v)
    simpa [add_comm] using this
  | cons he' hw ih =>
    have := WalkCost.cons he' (ih he)
    simpa [add_assoc] using this

theorem walkCost_nonneg {g : Graph} (nn : Nonneg g) {u v : Node} {c : Int}
    (h : WalkCost g u v c) : 0 ≤ c := by
  induction h with
  | nil x => exact le_refl 0
  | cons he _ ih => have := edgeW_nonneg nn he; omega

theorem reachable_self (g : Graph) (v : Node) : Reachable g v v := ⟨0, WalkCost.nil v⟩

theorem reachable_of_edge {g : Graph} {s u v : Node} {w : Int}
    (hr : Reachable g s u) (he : edgeW g u v = some w) : Reachable g s v := by
  obtain ⟨c, hc⟩ := hr
  exact ⟨c + w, walkCost_snoc hc he⟩

theorem chain_head {cf : Node → Option Node} {s v : Node} {l : List Node}
    (h : Chain cf s v l) : ∃ t, l = v :: t := by
  cases h with
  | nil => exact ⟨[], rfl⟩
  | cons hcf hch => exact ⟨_, rfl⟩

theorem chain_upd_not_mem {cf : Node → Option Node} {s x v : Node} {o : Option Node}
    {l : List Node} (h : Chain cf s x l) (hv : v ∉ l) : Chain (upd cf v o) s x l := by
  induction h with
  | nil =>
    exact Chain.nil
  | cons hcf hch ih =>
    rename_i x' u l'
    have hxv : x' ≠ v := by
      intro hh
      exact hv (hh ▸ List.mem_cons_self _ _)
    have : upd cf v o x' = cf x' := by simp [upd, hxv]
    exact Chain.cons (this ▸ hcf) (ih (fun hm => hv (List.mem_cons_of_mem _ hm)))

theorem chain_unique {cf : Node → Option Node} {s : Node} (hcfs : cf s = none) :
    ∀ {x : Node} {l₁ l₂ : List Node}, Chain cf s x l₁ → Chain cf s x l₂ → l₁ = l₂ := by
  intro x l₁ l₂ h1 h2
  induction h1 generalizing l₂ with
  | nil =>
    cases h2 with
    | nil => rfl
    | cons hcf hch => rw [hcfs] at hcf; cases hcf
  | cons hcf hch ih =>
    cases h2 with
    | nil => rw [hcfs] at hcf; cases hcf
    | cons hcf' hch' =>
      rw [hcf] at hcf'
      cases hcf'
      rw [ih hch']

theorem chain_split {cf : Node → Option Node} {s : Node} :
    ∀ {x : Node} {l : List Node}, Chain cf s x l → ∀ {v : Node}, v ∈ l →
      ∃ p t, l = p ++ v :: t ∧ v ∉ p ∧ Chain cf s v (v :: t) := by
  intro x l h
  induction h with
  | nil =>
    intro v hv
    simp at hv
    subst hv
    exact ⟨[], [], rfl, by simp, Chain.nil⟩
  | cons hcf hch ih =>
    rename_i x' u l'
    intro v hv
    by_cases hvx : v = x'
    · subst hvx
      exact ⟨[], l', rfl, by simp, Chain.cons hcf hch⟩
    · have hv' : v ∈ l' := by
        rcases List.mem_cons.mp hv with h | h
        · exact absurd h hvx
        · exact h
      obtain ⟨p, t, rfl, hvp, hchv⟩ := ih hv'
      exact ⟨x' :: p, t, rfl, by simp [hvp, Ne.symm (fun h => hvx h.symm), hvx], hchv⟩

theorem chain_inv_cons {cf : Node → Option Node} {s x y : Node} {r : List Node}
    (h : Chain cf s x (y :: r)) :
    x = y ∧ ((x = s ∧ r = []) ∨ ∃ u, cf x = some u ∧ Chain cf s u r) := by
  cases h with
  | nil => exact ⟨rfl, Or.inl ⟨rfl, rfl⟩⟩
  | cons hcf hch => exact ⟨rfl, Or.inr ⟨_, hcf, hch⟩⟩

theorem chain_graft {cf cf' : Node → Option Node} {s v : Node}
    (hagree : ∀ y, y ≠ v → cf' y = cf y) {t' : List Node}
    (hv' : Chain cf' s v (v :: t')) :
    ∀ (p : List Node) {x : Node} {t : List Node},
      Chain cf s x (p ++ v :: t) → v ∉ p → Chain cf' s x (p ++ v :: t') := by
  intro p
  induction p with
  | nil =>
    intro x t hch _
    obtain ⟨t0, ht0⟩ := chain_head hch
    simp only [List.nil_append] at hch ht0
    injection ht0 with h1 _
    subst h1
    simpa using hv'
  | cons y p'' ih =>
    intro x t hch hvp
    have hyv : y ≠ v := by
      intro hh
      exact hvp (hh ▸ List.mem_cons_self _ _)
    rw [List.cons_append] at hch
    obtain ⟨rfl, hrest⟩ := chain_inv_cons hch
    rcases hrest with ⟨-, hnil⟩ | ⟨u, hcf, hch'⟩
    · exact absurd hnil (by simp)
    · have hcf' : cf' x = some u := (hagree x hyv).trans hcf
      rw [List.cons_append]
      exact Chain.cons hcf' (ih hch' (fun hm => hvp (List.mem_cons_of_mem _ hm)))

theorem chain_dist_le {cf : Node → Option Node} {dist : Node → WithTop Int} {s : Node}
    (hce : ∀ v u, cf v = some u → ∃ w dv du : Int, 0 ≤ w ∧
      dist v = (dv : WithTop Int) ∧ dist u = (du : WithTop Int) ∧ du + w ≤ dv) :
    ∀ {u : Node} {l : List Node}, Chain cf s u l → ∀ x ∈ l, dist x ≤ dist u := by
  intro u l h
  induction h with
  | nil =>
    intro x hx
    simp at hx
    subst hx
    exact le_refl _
  | cons hcf hch ih =>
    rename_i v u' l'
    intro x hx
    rcases List.mem_cons.mp hx with rfl | hx'
    · exact le_refl _
    · refine le_trans (ih x hx') ?_
      obtain ⟨w, dv, du, hw0, hdv, hdu, hle⟩ := hce _ _ hcf
      rw [hdv, hdu, WithTop.coe_le_coe]
      omega

theorem pathCost_snoc {g : Graph} {u v : Node} {w : Int} :
    ∀ {q : List Node} {c : Int}, PathCost g q c → q.getLast? = some u →
      edgeW g u v = some w → PathCost g (q ++ [v]) (c + w) := by
  intro q c h
  induction h with
  | single x =>
    intro hlast he
    simp at hlast
    subst hlast
    have := PathCost.cons he (PathCost.single v)
    simpa [add_comm] using this
  | cons he' hp ih =>
    rename_i x y l w' c'
    intro hlast he
    have hlast' : (y :: l).getLast? = some u := by
      rw [← hlast]
      exact (List.getLast?_cons_cons ..).symm
    have := PathCost.cons he' (ih hlast' he)
    simpa [add_assoc] using this

/-! ## The loop invariant of `dijkstra` -/

theorem upd_same {β : Type} (f : Node → β) (k : Node) (v : β) : upd f k v k = v := by
  simp [upd]

theorem upd_ne {β : Type} (f : Node → β) (k x : Node) (v : β) (h : x ≠ k) :
    upd f k v x = f x := by
  simp [upd, h]

/-- `x` has an up-to-date queue entry: one whose priority equals its current
tentative distance. -/
def Fresh (st : DState) (x : Node) : Prop :=
  ∃ dx : Int, (dx, x) ∈ st.queue ∧ st.dist x = (dx : WithTop Int)

/-- All of `u`'s outgoing edges satisfy the relaxation inequality. -/
def Relaxed (g : Graph) (st : DState) (u : Node) : Prop :=
  ∀ a, alookup g u = some a → ∀ e ∈ a, st.dist e.1 ≤ st.dist u + ((e.2 : Int) : WithTop Int)

/-- Invariant of the `while queue:` loop.  Every queue entry carries the cost
of a real walk and dominates the current tentative distance of its node;
every finite tentative distance is a non-negative walk cost; predecessor
pointers point backwards along an edge that (weakly) improves the distance
and chain back to the source; and every node with a finite distance either
still has a fresh queue entry or already satisfies all its relaxation
inequalities. -/
structure Inv (g : Graph) (s : Node) (st : DState) : Prop where
  qmem : ∀ p ∈ st.queue, p.2 ∈ keys g ∧ 0 ≤ p.1 ∧ WalkCost g s p.2 p.1 ∧
    st.dist p.2 ≤ ((p.1 : Int) : WithTop Int)
  distfin : ∀ v, st.dist v ≠ ⊤ → ∃ d : Int, st.dist v = (d : WithTop Int) ∧ 0 ≤ d ∧
    WalkCost g s v d
  dist_nonkey : ∀ v, v ∉ keys g → st.dist v = ⊤
  dist_s : st.dist s = ((0 : Int) : WithTop Int)
  cf_s : st.cf s = none
  cf_edge : ∀ v u, st.cf v = some u → ∃ w dv du : Int, edgeW g u v = some w ∧
    st.dist v = (dv : WithTop Int) ∧ st.dist u = (du : WithTop Int) ∧ du + w ≤ dv
  chain : ∀ v, st.dist v ≠ ⊤ → ∃ l, Chain st.cf s v l
  rc : ∀ u, st.dist u ≠ ⊤ → Fresh st u ∨ Relaxed g st u

/-! ## The termination measure -/

def natDist (x : WithTop Int) : Nat := (x.untop' 0).toNat

/-- Number of keys still at distance infinity. -/
def CI (g : Graph) (st : DState) : Nat :=
  (keys g).countP (fun v => decide (st.dist v = ⊤))

/-- Sum of the finite tentative distances plus the queue length. -/
def SF (g : Graph) (st : DState) : Nat :=
  ((keys g).map (fun v => natDist (st.dist v))).sum + st.queue.length

/-- Lexicographic (non-strict) decrease of the measure. -/
def MLe (g : Graph) (st' st : DState) : Prop :=
  CI g st' < CI g st ∨ (CI g st' = CI g st ∧ SF g st' ≤ SF g st)

/-- Lexicographic strict decrease of the measure. -/
def MLt (g : Graph) (st' st : DState) : Prop :=
  CI g st' < CI g st ∨ (CI g st' = CI g st ∧ SF g st' < SF g st)

theorem mle_refl (g : Graph) (st : DState) : MLe g st st := Or.inr ⟨rfl, le_refl _⟩

theorem mle_trans {g : Graph} {a b c : DState} (h1 : MLe g a b) (h2 : MLe g b c) :
    MLe g a c := by
  rcases h1 with h1 | ⟨h1e, h1s⟩ <;> rcases h2 with h2 | ⟨h2e, h2s⟩
  · exact Or.inl (lt_trans h1 h2)
  · exact Or.inl (h2e ▸ h1)
  · exact Or.inl (h1e ▸ h2)
  · exact Or.inr ⟨h1e.trans h2e, le_trans h1s h2s⟩

theorem mlt_of_mle_mlt {g : Graph} {a b c : DState} (h1 : MLe g a b) (h2 : MLt g b c) :
    MLt g a c := by
  rcases h1 with h1 | ⟨h1e, h1s⟩ <;> rcases h2 with h2 | ⟨h2e, h2s⟩
  · exact Or.inl (lt_trans h1 h2)
  · exact Or.inl (h2e ▸ h1)
  · exact Or.inl (h1e ▸ h2)
  · exact Or.inr ⟨h1e.trans h2e, lt_of_le_of_lt h1s h2s⟩

/-! ### Pointwise update lemmas for the measure -/

theorem countP_congr_pointwise {l : List Node} {f f' : Node → Bool}
    (h : ∀ v ∈ l, f' v = f v) : l.countP f' = l.countP f := by
  induction l with
  | nil => rfl
  | cons x r ih =>
    rw [List.countP_cons, List.countP_cons, h x (List.mem_cons_self _ _),
      ih (fun v hv => h v (List.mem_cons_of_mem _ hv))]

theorem sum_map_congr_pointwise {l : List Node} {f f' : Node → Nat}
    (h : ∀ v ∈ l, f' v = f v) : (l.map f').sum = (l.map f).sum := by
  induction l with
  | nil => rfl
  | cons x r ih =>
    simp only [List.map_cons, List.sum_cons]
    rw [h x (List.mem_cons_self _ _), ih (fun v hv => h v (List.mem_cons_of_mem _ hv))]

theorem countP_lt_of_update {l : List Node} (nd : l.Nodup) {v : Node} (hv : v ∈ l)
    {f f' : Node → Bool} (hfv : f v = true) (hfv' : f' v = false)
    (h : ∀ x ∈ l, x ≠ v → f' x = f x) : l.countP f' < l.countP f := by
  induction l with
  | nil => simp at hv
  | cons x r ih =>
    simp only [List.nodup_cons] at nd
    rw [List.countP_cons, List.countP_cons]
    rcases List.mem_cons.mp hv with rfl | hv'
    · have heq : r.countP f' = r.countP f :=
        countP_congr_pointwise (fun y hy => h y (List.mem_cons_of_mem _ hy)
          (fun hh => nd.1 (hh ▸ hy)))
      rw [heq, hfv, hfv']
      simp
    · have hxv : x ≠ v := fun hh => nd.1 (hh ▸ hv')
      rw [h x (List.mem_cons_self _ _) hxv]
      have := ih nd.2 hv' (fun y hy hne => h y (List.mem_cons_of_mem _ hy) hne)
      omega

theorem sum_map_update {l : List Node} (nd : l.Nodup) {v : Node} (hv : v ∈ l)
    {f q : Node → Nat} (h : ∀ x ∈ l, x ≠ v → q x = f x) :
    (l.map q).sum + f v = (l.map f).sum + q v := by
  induction l with
  | nil => simp at hv
  | cons x r ih =>
    simp only [List.nodup_cons] at nd
    simp only [List.map_cons, List.sum_cons]
    rcases List.mem_cons.mp hv with rfl | hv'
    · have heq : (r.map q).sum = (r.map f).sum :=
        sum_map_congr_pointwise (fun y hy => h y (List.mem_cons_of_mem _ hy)
          (fun hh => nd.1 (hh ▸ hy)))
      rw [heq]
      omega
    · have hxv : x ≠ v := fun hh => nd.1 (hh ▸ hv')
      rw [h x (List.mem_cons_self _ _) hxv]
      have := ih nd.2 hv' (fun y hy hne => h y (List.mem_cons_of_mem _ hy) hne)
      omega

/-! ### The invariant holds at the initial state -/

theorem inv_init {g : Graph} {s : Node} (hs : s ∈ keys g) : Inv g s (dinit s) := by
  have hds : (dinit s).dist s = ((0 : Int) : WithTop Int) := by simp [dinit, upd]
  have hdother : ∀ v, v ≠ s → (dinit s).dist v = ⊤ := by
    intro v hv
    simp [dinit, upd, hv]
  refine ⟨?_, ?_, ?_, hds, rfl, ?_, ?_, ?_⟩
  · intro p hp
    simp only [dinit, List.mem_singleton] at hp
    subst hp
    exact ⟨hs, le_refl 0, WalkCost.nil s, le_of_eq hds⟩
  · intro v hv
    by_cases hvs : v = s
    · subst hvs
      exact ⟨0, hds, le_refl 0, WalkCost.nil v⟩
    · exact absurd (hdother v hvs) hv
  · intro v hv
    exact hdother v (fun hh => hv (hh ▸ hs))
  · intro v u hcf
    simp [dinit] at hcf
  · intro v hv
    by_cases hvs : v = s
    · subst hvs
      exact ⟨[v], Chain.nil⟩
    · exact absurd (hdother v hvs) hv
  · intro u hu
    by_cases hus : u = s
    · subst hus
      exact Or.inl ⟨0, by simp [dinit], hds⟩
    · exact absurd (hdother u hus) hu

/-! ## Preservation of the invariant by one relaxation -/

/-- Mid-relaxation invariant: all of `Inv` except that the popped node `u`
(with up-to-date distance `d`) is only guaranteed relaxed on the prefix of
its adjacency list processed so far, tracked separately. -/
structure MidInv (g : Graph) (s u : Node) (d : Int) (st : DState) : Prop where
  qmem : ∀ p ∈ st.queue, p.2 ∈ keys g ∧ 0 ≤ p.1 ∧ WalkCost g s p.2 p.1 ∧
    st.dist p.2 ≤ ((p.1 : Int) : WithTop Int)
  distfin : ∀ v, st.dist v ≠ ⊤ → ∃ dd : Int, st.dist v = (dd : WithTop Int) ∧ 0 ≤ dd ∧
    WalkCost g s v dd
  dist_nonkey : ∀ v, v ∉ keys g → st.dist v = ⊤
  dist_s : st.dist s = ((0 : Int) : WithTop Int)
  cf_s : st.cf s = none
  cf_edge : ∀ v x, st.cf v = some x → ∃ w dv dx : Int, edgeW g x v = some w ∧
    st.dist v = (dv : WithTop Int) ∧ st.dist x = (dx : WithTop Int) ∧ dx + w ≤ dv
  chain : ∀ v, st.dist v ≠ ⊤ → ∃ l, Chain st.cf s v l
  dist_u : st.dist u = (d : WithTop Int)
  rc' : ∀ x, st.dist x ≠ ⊤ → x ≠ u → Fresh st x ∨ Relaxed g st x

theorem relax1_of_not_lt {u : Node} {d : Int} {st : DState} {e : Node × Int}
    (h : ¬(((d + e.2 : Int) : WithTop Int) < st.dist e.1)) : relax1 u d st e = st := by
  unfold relax1
  rw [if_neg h]

theorem relax1_of_lt {u : Node} {d : Int} {st : DState} {e : Node × Int}
    (h : ((d + e.2 : Int) : WithTop Int) < st.dist e.1) :
    relax1 u d st e =
      { dist := upd st.dist e.1 ((d + e.2 : Int) : WithTop Int)
        cf := upd st.cf e.1 (some u)
        queue := (d + e.2, e.1) :: st.queue } := by
  unfold relax1
  rw [if_pos h]

theorem relax1_step {g : Graph} {s u : Node} {d : Int} {a : List (Node × Int)}
    (wf : GraphWF g) (nn : Nonneg g)
    (hadj : alookup g u = some a) (hd0 : 0 ≤ d) (hwalk : WalkCost g s u d)
    {st : DState} (mid : MidInv g s u d st) {e : Node × Int} (hea : e ∈ a) :
    MidInv g s u d (relax1 u d st e) ∧ MLe g (relax1 u d st e) st ∧
      (relax1 u d st e).dist e.1 ≤ ((d + e.2 : Int) : WithTop Int) ∧
      (∀ x, (relax1 u d st e).dist x ≤ st.dist x) ∧
      (∀ p ∈ st.queue, p ∈ (relax1 u d st e).queue) := by
  obtain ⟨v, w₀⟩ := e
  by_cases htrig : ((d + w₀ : Int) : WithTop Int) < st.dist v
  case neg =>
    rw [relax1_of_not_lt htrig]
    exact ⟨mid, mle_refl g st, not_lt.mp htrig, fun x => le_refl _, fun p hp => hp⟩
  case pos =>
    rw [relax1_of_lt htrig]
    set D : Int := d + w₀ with hD
    have hedge : edgeW g u v = some w₀ := edgeW_of_adj wf hadj hea
    have hw0 : 0 ≤ w₀ := edgeW_nonneg nn hedge
    have hvkeys : v ∈ keys g := edgeW_target_mem wf hedge
    have hvu : v ≠ u := by
      rintro rfl
      rw [mid.dist_u, WithTop.coe_lt_coe] at htrig
      omega
    have hvs : v ≠ s := by
      rintro rfl
      rw [mid.dist_s, WithTop.coe_lt_coe] at htrig
      omega
    have hDnn : 0 ≤ D := by omega
    have hwalkv : WalkCost g s v D := walkCost_snoc hwalk hedge
    set st' : DState :=
      { dist := upd st.dist v ((D : Int) : WithTop Int)
        cf := upd st.cf v (some u)
        queue := (D, v) :: st.queue } with hst'
    have hdist'v : st'.dist v = ((D : Int) : WithTop Int) := upd_same _ _ _
    have hdist'ne : ∀ x, x ≠ v → st'.dist x = st.dist x := fun x hx => upd_ne _ _ _ _ hx
    have hcf'v : st'.cf v = some u := upd_same _ _ _
    have hcf'ne : ∀ x, x ≠ v → st'.cf x = st.cf x := fun x hx => upd_ne _ _ _ _ hx
    have hdist_dec : ∀ x, st'.dist x ≤ st.dist x := by
      intro x
      by_cases hx : x = v
      · subst hx
        rw [hdist'v]
        exact le_of_lt htrig
      · rw [hdist'ne x hx]
    -- the new chain for `v`
    have hchainv : ∃ lu, Chain st'.cf s v (v :: lu) := by
      have hdu : st.dist u ≠ ⊤ := by rw [mid.dist_u]; exact WithTop.coe_ne_top
      obtain ⟨lu, hlu⟩ := mid.chain u hdu
      have hce : ∀ y x, st.cf y = some x → ∃ w dy dx : Int, 0 ≤ w ∧
          st.dist y = (dy : WithTop Int) ∧ st.dist x = (dx : WithTop Int) ∧ dx + w ≤ dy := by
        intro y x hcf
        obtain ⟨w, dy, dx, he, h1, h2, h3⟩ := mid.cf_edge y x hcf
        exact ⟨w, dy, dx, edgeW_nonneg nn he, h1, h2, h3⟩
      have hvlu : v ∉ lu := by
        intro hmem
        have hle1 : st.dist v ≤ st.dist u := chain_dist_le hce hlu v hmem
        rw [mid.dist_u] at hle1
        have hle2 : ((d : Int) : WithTop Int) ≤ ((D : Int) : WithTop Int) := by
          rw [WithTop.coe_le_coe]
          omega
        exact absurd (lt_of_lt_of_le htrig (le_trans hle1 hle2)) (lt_irrefl _)
      exact ⟨lu, Chain.cons hcf'v (chain_upd_not_mem hlu hvlu)⟩
    have hchain' : ∀ x, st'.dist x ≠ ⊤ → ∃ l, Chain st'.cf s x l := by
      intro x hx
      by_cases hxv : x = v
      · subst hxv
        obtain ⟨lu, hlu⟩ := hchainv
        exact ⟨x :: lu, hlu⟩
      · rw [hdist'ne x hxv] at hx
        obtain ⟨lx, hlx⟩ := mid.chain x hx
        by_cases hvlx : v ∈ lx
        · obtain ⟨p, t, rfl, hvp, hchv⟩ := chain_split hlx hvlx
          obtain ⟨lu, hlu⟩ := hchainv
          exact ⟨p ++ v :: lu, chain_graft hcf'ne hlu p hlx hvp⟩
        · exact ⟨lx, chain_upd_not_mem hlx hvlx⟩
    refine ⟨⟨?_, ?_, ?_, ?_, ?_, ?_, hchain', ?_, ?_⟩, ?_, ?_, hdist_dec, ?_⟩
    · -- qmem
      intro p hp
      rcases List.mem_cons.mp hp with rfl | hp'
      · exact ⟨hvkeys, hDnn, hwalkv, le_of_eq hdist'v⟩
      · obtain ⟨h1, h2, h3, h4⟩ := mid.qmem p hp'
        exact ⟨h1, h2, h3, le_trans (hdist_dec p.2) h4⟩
    · -- distfin
      intro x hx
      by_cases hxv : x = v
      · subst hxv
        exact ⟨D, hdist'v, hDnn, hwalkv⟩
      · rw [hdist'ne x hxv] at hx ⊢
        exact mid.distfin x hx
    · -- dist_nonkey
      intro x hx
      have hxv : x ≠ v := fun hh => hx (hh ▸ hvkeys)
      rw [hdist'ne x hxv]
      exact mid.dist_nonkey x hx
    · -- dist_s
      rw [hdist'ne s (fun hh => hvs hh.symm)]
      exact mid.dist_s
    · -- cf_s
      rw [hcf'ne s (fun hh => hvs hh.symm)]
      exact mid.cf_s
    · -- cf_edge
      intro y x hcf
      by_cases hyv : y = v
      · subst hyv
        rw [hcf'v] at hcf
        cases hcf
        refine ⟨w₀, D, d, hedge, hdist'v, ?_, by omega⟩
        rw [hdist'ne u (fun hh => hvu hh.symm)]
        exact mid.dist_u
      · rw [hcf'ne y hyv] at hcf
        obtain ⟨w, dy, dx, he, h1, h2, h3⟩ := mid.cf_edge y x hcf
        by_cases hxv : x = v
        · subst hxv
          refine ⟨w, dy, D, he, by rw [hdist'ne y hyv]; exact h1, hdist'v, ?_⟩
          rw [h2, WithTop.coe_lt_coe] at htrig
          omega
        · exact ⟨w, dy, dx, he, by rw [hdist'ne y hyv]; exact h1,
            by rw [hdist'ne x hxv]; exact h2, h3⟩
    · -- dist_u
      rw [hdist'ne u (fun hh => hvu hh.symm)]
      exact mid.dist_u
    · -- rc'
      intro x hx hxu
      by_cases hxv : x = v
      · subst hxv
        exact Or.inl ⟨D, List.mem_cons_self _ _, hdist'v⟩
      · rw [hdist'ne x hxv] at hx
        rcases mid.rc' x hx hxu with ⟨dx, hmem, hdx⟩ | hrel
        · exact Or.inl ⟨dx, List.mem_cons_of_mem _ hmem, by rw [hdist'ne x hxv]; exact hdx⟩
        · refine Or.inr ?_
          intro a' ha' e' he'
          refine le_trans (hdist_dec e'.1) (le_trans (hrel a' ha' e' he') ?_)
          rw [hdist'ne x hxv]
    · -- measure
      cases hold : st.dist v with
      | top =>
        refine Or.inl ?_
        refine countP_lt_of_update wf.1 hvkeys ?_ ?_ ?_
        · simp [hold]
        · simp [upd]
        · intro x _ hxv
          simp [upd, hxv]
      | coe dv =>
        have hci : CI g st' = CI g st := by
          refine countP_congr_pointwise ?_
          intro x _
          by_cases hxv : x = v
          · subst hxv
            simp [upd, hold]
          · simp [upd, hxv]
        refine Or.inr ⟨hci, ?_⟩
        have hsum := sum_map_update (f := fun x => natDist (st.dist x))
          (q := fun x => natDist (st'.dist x)) wf.1 hvkeys
          (fun x _ hxv => by simp [upd, hxv])
        have hsum2 : ((keys g).map fun x => natDist (st'.dist x)).sum + natDist (st.dist v)
            = ((keys g).map fun x => natDist (st.dist x)).sum + natDist (st'.dist v) := hsum
        have hnatv : natDist (st'.dist v) = D.toNat := by rw [hdist'v]; rfl
        have hnatold : natDist (st.dist v) = dv.toNat := by rw [hold]; rfl
        have hlen : st'.queue.length = st.queue.length + 1 := rfl
        have hDdv : D < dv := by
          rw [hold, WithTop.coe_lt_coe] at htrig
          exact htrig
        rw [hnatv, hnatold] at hsum2
        show ((keys g).map fun x => natDist (st'.dist x)).sum + st'.queue.length ≤
          ((keys g).map fun x => natDist (st.dist x)).sum + st.queue.length
        rw [hlen]
        omega
    · -- the processed pair is now relaxed
      rw [hdist'v]
    · -- old queue entries survive
      intro p hp
      exact List.mem_cons_of_mem _ hp

/-! ## The whole relaxation fold and one loop iteration -/

theorem relaxAll_cons (u : Node) (d : Int) (e : Node × Int) (R : List (Node × Int))
    (st : DState) : relaxAll u d (e :: R) st = relaxAll u d R (relax1 u d st e) := rfl

theorem relaxAll_mid {g : Graph} {s u : Node} {d : Int} {a : List (Node × Int)}
    (wf : GraphWF g) (nn : Nonneg g)
    (hadj : alookup g u = some a) (hd0 : 0 ≤ d) (hwalk : WalkCost g s u d) :
    ∀ (R : List (Node × Int)), (∀ e ∈ R, e ∈ a) → ∀ st, MidInv g s u d st →
      MidInv g s u d (relaxAll u d R st) ∧ MLe g (relaxAll u d R st) st ∧
      (∀ x, (relaxAll u d R st).dist x ≤ st.dist x) ∧
      (∀ e ∈ R, (relaxAll u d R st).dist e.1 ≤ ((d + e.2 : Int) : WithTop Int)) := by
  intro R
  induction R with
  | nil =>
    intro _ st mid
    exact ⟨mid, mle_refl g st, fun x => le_refl _, by simp⟩
  | cons e R ih =>
    intro hRa st mid
    have hea : e ∈ a := hRa e (List.mem_cons_self _ _)
    obtain ⟨mid1, hle1, hproc1, hdec1, _⟩ := relax1_step wf nn hadj hd0 hwalk mid hea
    obtain ⟨midF, hleF, hdecF, hprocF⟩ :=
      ih (fun e' he' => hRa e' (List.mem_cons_of_mem _ he')) (relax1 u d st e) mid1
    rw [relaxAll_cons]
    refine ⟨midF, mle_trans hleF hle1, fun x => le_trans (hdecF x) (hdec1 x), ?_⟩
    intro e' he'
    rcases List.mem_cons.mp he' with rfl | he''
    · exact le_trans (hdecF e'.1) hproc1
    · exact hprocF e' he''

theorem relaxAll_noop {u : Node} {d : Int} {a : List (Node × Int)} {st : DState}
    (h : ∀ e ∈ a, ¬(((d + e.2 : Int) : WithTop Int) < st.dist e.1)) :
    relaxAll u d a st = st := by
  induction a with
  | nil => rfl
  | cons e R ih =>
    rw [relaxAll_cons, relax1_of_not_lt (h e (List.mem_cons_self _ _))]
    exact ih (fun e' he' => h e' (List.mem_cons_of_mem _ he'))

theorem iter_inv {g : Graph} {s : Node} (wf : GraphWF g) (nn : Nonneg g)
    {st : DState} (inv : Inv g s st)
    {d : Int} {u : Node} {q : List (Int × Node)}
    (hpop : popMin st.queue = some ((d, u), q))
    {a : List (Node × Int)} (hadj : alookup g u = some a) :
    Inv g s (relaxAll u d a { st with queue := q }) ∧
      MLt g (relaxAll u d a { st with queue := q }) st := by
  obtain ⟨hmem, hq, hmin⟩ := popMin_spec hpop
  obtain ⟨hukey, hd0, hwalk, hdle⟩ := inv.qmem (d, u) hmem
  have hdufin : st.dist u ≠ ⊤ := by
    intro hh
    rw [hh] at hdle
    exact absurd (top_le_iff.mp hdle) WithTop.coe_ne_top
  obtain ⟨du, hdu, hdu0, hwalku⟩ := inv.distfin u hdufin
  have hdud : du ≤ d := by
    rw [hdu, WithTop.coe_le_coe] at hdle
    exact hdle
  set st₁ : DState := { st with queue := q } with hst₁
  have hd1 : st₁.dist = st.dist := rfl
  have hc1 : st₁.cf = st.cf := rfl
  have hqlen : q.length < st.queue.length := by
    rw [hq, List.length_erase_of_mem hmem]
    have : 0 < st.queue.length := List.length_pos_of_mem hmem
    omega
  have hmlt1 : MLt g st₁ st := by
    refine Or.inr ⟨rfl, ?_⟩
    show ((keys g).map fun x => natDist (st₁.dist x)).sum + st₁.queue.length <
      ((keys g).map fun x => natDist (st.dist x)).sum + st.queue.length
    rw [hd1]
    exact Nat.add_lt_add_left hqlen _
  have hqsub : ∀ p, p ∈ q → p ∈ st.queue := by
    intro p hp
    rw [hq] at hp
    exact List.mem_of_mem_erase hp
  by_cases hfresh : du = d
  case pos =>
    subst hfresh
    have mid1 : MidInv g s u du st₁ := by
      refine ⟨fun p hp => inv.qmem p (hqsub p hp), inv.distfin, inv.dist_nonkey,
        inv.dist_s, inv.cf_s, inv.cf_edge, inv.chain, hdu, ?_⟩
      intro x hx hxu
      rcases inv.rc x hx with ⟨dx, hmemx, hdx⟩ | hrel
      · refine Or.inl ⟨dx, ?_, hdx⟩
        show (dx, x) ∈ q
        rw [hq]
        refine (List.mem_erase_of_ne ?_).mpr hmemx
        intro hh
        exact hxu (congrArg Prod.snd hh)
      · exact Or.inr hrel
    obtain ⟨midF, hleF, hdecF, hprocF⟩ :=
      relaxAll_mid wf nn hadj hd0 hwalk a (fun e he => he) st₁ mid1
    refine ⟨⟨midF.qmem, midF.distfin, midF.dist_nonkey, midF.dist_s, midF.cf_s,
      midF.cf_edge, midF.chain, ?_⟩, mlt_of_mle_mlt hleF hmlt1⟩
    intro x hx
    by_cases hxu : x = u
    · subst hxu
      refine Or.inr ?_
      intro a' ha' e' he'
      rw [hadj] at ha'
      cases ha'
      rw [midF.dist_u, ← WithTop.coe_add]
      exact hprocF e' he'
    · exact midF.rc' x hx hxu
  case neg =>
    have hdult : du < d := lt_of_le_of_ne hdud hfresh
    have hrel : Relaxed g st u := by
      rcases inv.rc u hdufin with ⟨dx, hmemx, hdx⟩ | hrel
      · rw [hdu] at hdx
        have hdxdu : dx = du := WithTop.coe_injective hdx.symm
        subst hdxdu
        have := hmin (dx, u) hmemx
        simp only [qleB, Bool.or_eq_true, Bool.and_eq_true, decide_eq_true_eq] at this
        rcases this with h1 | ⟨h1, -⟩ <;> omega
      · exact hrel
    have hnoop : relaxAll u d a st₁ = st₁ := by
      refine relaxAll_noop ?_
      intro e he
      rw [hst₁]
      show ¬(((d + e.2 : Int) : WithTop Int) < st.dist e.1)
      refine not_lt.mpr ?_
      refine le_trans (hrel a hadj e he) ?_
      rw [hdu, ← WithTop.coe_add, WithTop.coe_le_coe]
      omega
    rw [hnoop]
    refine ⟨⟨fun p hp => inv.qmem p (hqsub p hp), inv.distfin, inv.dist_nonkey,
      inv.dist_s, inv.cf_s, inv.cf_edge, inv.chain, ?_⟩, hmlt1⟩
    intro x hx
    rcases inv.rc x hx with ⟨dx, hmemx, hdx⟩ | hrelx
    · refine Or.inl ⟨dx, ?_, hdx⟩
      show (dx, x) ∈ q
      rw [hq]
      refine (List.mem_erase_of_ne ?_).mpr hmemx
      intro hh
      have hxu : x = u := congrArg Prod.snd hh
      have hdxd : dx = d := congrArg Prod.fst hh
      subst hxu
      subst hdxd
      rw [hdu] at hdx
      have := WithTop.coe_injective hdx.symm
      omega
    · exact Or.inr hrelx

/-! ## Unfolding equations for `drun`, and termination of the loop -/

theorem drun_empty (g : Graph) (n : Nat) {st : DState} (h : st.queue = []) :
    drun g (n + 1) st = some (.ok st) := by
  have hpop : popMin st.queue = none := popMin_none.mpr h
  simp [drun, hpop]

theorem drun_step (g : Graph) (n : Nat) {st : DState} {d : Int} {u : Node}
    {q : List (Int × Node)} (hpop : popMin st.queue = some ((d, u), q))
    {a : List (Node × Int)} (hadj : alookup g u = some a) :
    drun g (n + 1) st = drun g n (relaxAll u d a { st with queue := q }) := by
  simp [drun, hpop, hadj]

theorem drun_keyerr (g : Graph) (n : Nat) {st : DState} {d : Int} {u : Node}
    {q : List (Int × Node)} (hpop : popMin st.queue = some ((d, u), q))
    (hadj : alookup g u = none) :
    drun g (n + 1) st = some (.error (.keyError (.intKey u))) := by
  simp [drun, hpop, hadj]

theorem drun_mono (g : Graph) :
    ∀ (n k : Nat) {st : DState} {r : Except PyErr DState},
      drun g n st = some r → drun g (n + k) st = some r := by
  intro n
  induction n with
  | zero =>
    intro k st r h
    simp [drun] at h
  | succ n ih =>
    intro k st r h
    have hsucc : n + 1 + k = (n + k) + 1 := by omega
    rw [hsucc]
    cases hpop : popMin st.queue with
    | none =>
      rw [drun] at h ⊢
      rw [hpop] at h ⊢
      exact h
    | some mq =>
      obtain ⟨⟨d, u⟩, q⟩ := mq
      cases hadj : alookup g u with
      | none =>
        rw [drun_keyerr g n hpop hadj] at h
        rw [drun_keyerr g (n + k) hpop hadj]
        exact h
      | some a =>
        rw [drun_step g n hpop hadj] at h
        rw [drun_step g (n + k) hpop hadj]
        exact ih k h

theorem run_term {g : Graph} {s : Node} (wf : GraphWF g) (nn : Nonneg g) :
    ∀ (k₁ k₂ : Nat) (st : DState), Inv g s st → CI g st = k₁ → SF g st = k₂ →
      ∃ n st', drun g n st = some (.ok st') ∧ Inv g s st' ∧ st'.queue = [] := by
  intro k₁
  induction k₁ using Nat.strong_induction_on with
  | _ k₁ ih₁ =>
    intro k₂
    induction k₂ using Nat.strong_induction_on with
    | _ k₂ ih₂ =>
      intro st inv hCI hSF
      cases hpop : popMin st.queue with
      | none =>
        exact ⟨1, st, drun_empty g 0 (popMin_none.mp hpop), inv, popMin_none.mp hpop⟩
      | some mq =>
        obtain ⟨⟨d, u⟩, q⟩ := mq
        have hukey := (inv.qmem (d, u) (popMin_spec hpop).1).1
        obtain ⟨a, hadj⟩ := alookup_isSome_of_mem_keys hukey
        obtain ⟨inv', hmlt⟩ := iter_inv wf nn inv hpop hadj
        rcases hmlt with hlt | ⟨heq, hlt⟩
        · obtain ⟨n, st', h1, h2, h3⟩ :=
            ih₁ _ (hCI ▸ hlt) _ _ inv' rfl rfl
          exact ⟨n + 1, st', by rw [drun_step g n hpop hadj]; exact h1, h2, h3⟩
        · obtain ⟨n, st', h1, h2, h3⟩ :=
            ih₂ _ (hSF ▸ hlt) _ inv' (heq.trans hCI) rfl
          exact ⟨n + 1, st', by rw [drun_step g n hpop hadj]; exact h1, h2, h3⟩

theorem dijkstra_completes {g : Graph} {s : Node} (wf : GraphWF g) (nn : Nonneg g)
    (hs : s ∈ keys g) :
    ∃ n st', drun g n (dinit s) = some (.ok st') ∧ Inv g s st' ∧ st'.queue = [] :=
  run_term wf nn _ _ (dinit s) (inv_init hs) rfl rfl

/-! ## Correctness of the final state -/

theorem final_relaxed {g : Graph} {s : Node} {st : DState} (inv : Inv g s st)
    (hq : st.queue = []) : ∀ u, st.dist u ≠ ⊤ → Relaxed g st u := by
  intro u hu
  rcases inv.rc u hu with ⟨dx, hmem, -⟩ | h
  · rw [hq] at hmem
    simp at hmem
  · exact h

theorem final_upper {g : Graph} {s : Node} {st : DState} (inv : Inv g s st)
    (hq : st.queue = []) :
    ∀ {u x : Node} {c : Int}, WalkCost g u x c → ∀ du : Int, st.dist u = (du : WithTop Int) →
      st.dist x ≤ ((du + c : Int) : WithTop Int) := by
  intro u x c hw
  induction hw with
  | nil v =>
    intro du hdu
    rw [hdu, WithTop.coe_le_coe]
    omega
  | cons he hw ih =>
    rename_i u₀ v₀ x₀ w c₀
    intro du hdu
    have hrelu := final_relaxed inv hq u₀ (by rw [hdu]; exact WithTop.coe_ne_top)
    have hv₀ : st.dist v₀ ≤ ((du + w : Int) : WithTop Int) := by
      unfold edgeW at he
      cases ha : alookup g u₀ with
      | none => rw [ha] at he; simp at he
      | some a =>
        rw [ha] at he
        have hmem : (v₀, w) ∈ a := alookup_mem he
        have := hrelu a ha (v₀, w) hmem
        rw [hdu, ← WithTop.coe_add] at this
        exact this
    rcases WithTop.le_coe_iff.mp hv₀ with ⟨dv, hdv, hdvle⟩
    refine le_trans (ih dv hdv) ?_
    rw [WithTop.coe_le_coe]
    omega

theorem final_chain_path {g : Graph} {s : Node} {st : DState} (inv : Inv g s st)
    (hq : st.queue = []) :
    ∀ {x : Node} {l : List Node}, Chain st.cf s x l → ∀ dx : Int,
      st.dist x = (dx : WithTop Int) → PathCost g l.reverse dx := by
  intro x l hch
  induction hch with
  | nil =>
    intro dx hdx
    rw [inv.dist_s] at hdx
    have : (0 : Int) = dx := WithTop.coe_injective hdx
    subst this
    simpa using PathCost.single s
  | cons hcf hch ih =>
    rename_i v u l'
    intro dv hdv
    obtain ⟨w, dv', du, hedge, hdv', hdu, hle⟩ := inv.cf_edge v u hcf
    have hdvv : dv' = dv := WithTop.coe_injective (hdv' ▸ hdv)
    subst hdvv
    have hrelu := final_relaxed inv hq u (by rw [hdu]; exact WithTop.coe_ne_top)
    have hvle : st.dist v ≤ ((du + w : Int) : WithTop Int) := by
      unfold edgeW at hedge
      cases ha : alookup g u with
      | none => rw [ha] at hedge; simp at hedge
      | some a =>
        rw [ha] at hedge
        have := hrelu a ha (v, w) (alookup_mem hedge)
        rw [hdu, ← WithTop.coe_add] at this
        exact this
    have hdveq : dv' = du + w := by
      rw [hdv'] at hvle
      rw [WithTop.coe_le_coe] at hvle
      omega
    obtain ⟨t, rfl⟩ := chain_head hch
    have hpath := ih du hdu
    have hlast : ((u :: t).reverse).getLast? = some u := by
      rw [List.reverse_cons]
      exact List.getLast?_concat _
    have := pathCost_snoc hpath hlast hedge
    rw [List.reverse_cons]
    rw [hdveq]
    simpa [add_comm] using this

theorem final_correct {g : Graph} {s : Node} {st : DState}
    (inv : Inv g s st) (hq : st.queue = []) :
    (∀ v, Reachable g s v → ∃ d : Int, st.dist v = (d : WithTop Int) ∧ IsShortest g s v d ∧
      ∃ l, Chain st.cf s v l ∧ PathCost g l.reverse d) ∧
    (∀ v, ¬Reachable g s v → st.dist v = ⊤ ∧ st.cf v = none) := by
  constructor
  · intro v hr
    obtain ⟨c, hw⟩ := hr
    have hvle : st.dist v ≤ ((0 + c : Int) : WithTop Int) := final_upper inv hq hw 0 inv.dist_s
    have hvfin : st.dist v ≠ ⊤ := by
      intro hh
      rw [hh] at hvle
      exact absurd (top_le_iff.mp hvle) WithTop.coe_ne_top
    obtain ⟨d, hd, hd0, hwalkd⟩ := inv.distfin v hvfin
    obtain ⟨l, hl⟩ := inv.chain v hvfin
    refine ⟨d, hd, ⟨hwalkd, ?_⟩, l, hl, final_chain_path inv hq hl d hd⟩
    intro c' hc'
    have := final_upper inv hq hc' 0 inv.dist_s
    rw [hd, WithTop.coe_le_coe] at this
    omega
  · intro v hr
    have hdist : st.dist v = ⊤ := by
      by_contra hh
      obtain ⟨d, -, -, hwalkd⟩ := inv.distfin v hh
      exact hr ⟨d, hwalkd⟩
    refine ⟨hdist, ?_⟩
    cases hcf : st.cf v with
    | none => rfl
    | some u =>
      obtain ⟨w, dv, du, -, hdv, -, -⟩ := inv.cf_edge v u hcf
      rw [hdist] at hdv
      exact absurd hdv.symm WithTop.coe_ne_top

/-! ## Structure of the graph built by `produce_graph` -/

def placeIds (T : Tables) : List Node := T.places.map Prod.fst

/-- What the shipped static tables guarantee: distinct place ids, and every
link/elevator endpoint is a declared place. -/
def TablesWF (T : Tables) : Prop :=
  (placeIds T).Nodup ∧
  (∀ l ∈ T.links, l.2.1 ∈ placeIds T ∧ l.2.2.1 ∈ placeIds T) ∧
  (∀ e ∈ T.elevators, e.2.1 ∈ placeIds T ∧ e.2.2 ∈ placeIds T)

def LinksNonneg (T : Tables) : Prop := ∀ l ∈ T.links, 0 ≤ l.2.2.2

instance (T : Tables) : Decidable (TablesWF T) := by
  unfold TablesWF
  infer_instance

instance (T : Tables) : Decidable (LinksNonneg T) := by
  unfold LinksNonneg
  infer_instance

/-- The adjacency is symmetric as a function. -/
def Sym (g : Graph) : Prop := ∀ a b : Node, edgeW g a b = edgeW g b a

theorem mem_aset {α β : Type} [DecidableEq α] {l : List (α × β)} {k : α} {v : β}
    {e : α × β} (h : e ∈ aset l k v) : e ∈ l ∨ e = (k, v) := by
  induction l with
  | nil => simpa [aset] using h
  | cons p r ih =>
    obtain ⟨k', v'⟩ := p
    by_cases hk : k' = k
    · subst hk
      simp only [aset, if_pos rfl] at h
      rcases List.mem_cons.mp h with rfl | h1
      · exact Or.inr rfl
      · exact Or.inl (List.mem_cons_of_mem _ h1)
    · simp only [aset, if_neg hk] at h
      rcases List.mem_cons.mp h with rfl | h1
      · exact Or.inl (List.mem_cons_self _ _)
      · rcases ih h1 with h2 | h2
        · exact Or.inl (List.mem_cons_of_mem _ h2)
        · exact Or.inr h2

theorem gset_mem_cases {g : Graph} {x y : Node} {w : Int} {p : Node × List (Node × Int)}
    (h : p ∈ gset g x y w) :
    p ∈ g ∨ ∃ inner, (p.1, inner) ∈ g ∧ p.2 = aset inner y w := by
  induction g with
  | nil => simp [gset] at h
  | cons q r ih =>
    obtain ⟨k, inner⟩ := q
    by_cases hk : k = x
    · subst hk
      simp only [gset, if_pos rfl] at h
      rcases List.mem_cons.mp h with rfl | h1
      · exact Or.inr ⟨inner, List.mem_cons_self _ _, rfl⟩
      · exact Or.inl (List.mem_cons_of_mem _ h1)
    · simp only [gset, if_neg hk] at h
      rcases List.mem_cons.mp h with rfl | h1
      · exact Or.inl (List.mem_cons_self _ _)
      · rcases ih h1 with h2 | ⟨inner', h2, h3⟩
        · exact Or.inl (List.mem_cons_of_mem _ h2)
        · exact Or.inr ⟨inner', List.mem_cons_of_mem _ h2, h3⟩

theorem gset_inner_prop {Q : Node → Int → Prop} {g : Graph} {x y : Node} {w : Int}
    (hg : ∀ p ∈ g, ∀ e ∈ p.2, Q e.1 e.2) (hq : Q y w) :
    ∀ p ∈ gset g x y w, ∀ e ∈ p.2, Q e.1 e.2 := by
  intro p hp e he
  rcases gset_mem_cases hp with h | ⟨inner, hmem, hset⟩
  · exact hg p h e he
  · rw [hset] at he
    rcases mem_aset he with h1 | h1
    · exact hg _ hmem e h1
    · rw [h1]
      exact hq

theorem gset_inner_nodup {g : Graph} {x y : Node} {w : Int}
    (hg : ∀ p ∈ g, (p.2.map Prod.fst).Nodup) :
    ∀ p ∈ gset g x y w, (p.2.map Prod.fst).Nodup := by
  intro p hp
  rcases gset_mem_cases hp with h | ⟨inner, hmem, hset⟩
  · exact hg p h
  · rw [hset]
    exact nodup_keys_aset _ _ (hg _ hmem)

theorem edgeW_gset {g : Graph} {x : Node} (y : Node) (w : Int)
    (hx : x ∈ keys g) (a b : Node) :
    edgeW (gset g x y w) a b = if a = x ∧ b = y then some w else edgeW g a b := by
  obtain ⟨ax, hax⟩ := alookup_isSome_of_mem_keys hx
  by_cases hauxa : a = x
  · subst hauxa
    have h1 : alookup (gset g a y w) a = some (aset ax y w) := alookup_gset_self y w hax
    unfold edgeW
    rw [h1, hax]
    by_cases hb : b = y
    · subst hb
      simp [alookup_aset_self]
    · simp [alookup_aset_ne _ _ _ _ hb, hb]
  · have h1 : alookup (gset g x y w) a = alookup g a := alookup_gset_ne g x y a w hauxa
    unfold edgeW
    rw [h1]
    simp [hauxa]

/-- Effect of the two mirrored insertions done per link / per elevator. -/
theorem edgeW_gset2 {g : Graph} {x y : Node} (w : Int)
    (hx : x ∈ keys g) (hy : y ∈ keys g) (a b : Node) :
    edgeW (gset (gset g x y w) y x w) a b =
      if a = y ∧ b = x then some w else if a = x ∧ b = y then some w else edgeW g a b := by
  have hy' : y ∈ keys (gset g x y w) := by rw [keys_gset]; exact hy
  rw [edgeW_gset x w hy' a b, edgeW_gset y w hx a b]

theorem sym_gset2 {g : Graph} {x y : Node} {w : Int}
    (hx : x ∈ keys g) (hy : y ∈ keys g) (hsym : Sym g) :
    Sym (gset (gset g x y w) y x w) := by
  intro a b
  rw [edgeW_gset2 w hx hy a b, edgeW_gset2 w hx hy b a]
  by_cases h1 : a = y ∧ b = x <;> by_cases h2 : a = x ∧ b = y <;>
    by_cases h3 : b = y ∧ a = x <;> by_cases h4 : b = x ∧ a = y <;>
      simp [h1, h2, h3, h4, hsym a b]

/-- The initial graph `{place: {} for place in PLACES}` has no edges. -/
theorem edgeW_init_none (ps : List (Node × String)) (a b : Node) :
    edgeW (ps.map (fun p => (p.1, ([] : List (Node × Int))))) a b = none := by
  induction ps with
  | nil => rfl
  | cons p r ih =>
    unfold edgeW
    by_cases ha : a = p.1
    · simp [alookup, ha, List.map_cons]
    · simp only [List.map_cons, alookup, ha, if_neg ha]
      exact ih

theorem keys_init (ps : List (Node × String)) :
    keys (ps.map (fun p => (p.1, ([] : List (Node × Int))))) = ps.map Prod.fst := by
  unfold keys
  rw [List.map_map]
  rfl

/-- Properties preserved by every insertion `produce_graph` performs. -/
def GProps (g : Graph) : Prop :=
  Sym g ∧ (∀ p ∈ g, (p.2.map Prod.fst).Nodup) ∧ (∀ p ∈ g, ∀ e ∈ p.2, e.1 ∈ keys g)

theorem keys_gset2 (g : Graph) (x y : Node) (w : Int) :
    keys (gset (gset g x y w) y x w) = keys g := by
  rw [keys_gset, keys_gset]

theorem gprops_gset2 {g : Graph} {x y : Node} {w : Int}
    (hx : x ∈ keys g) (hy : y ∈ keys g) (hg : GProps g) :
    GProps (gset (gset g x y w) y x w) := by
  obtain ⟨hsym, hnd, hcl⟩ := hg
  refine ⟨sym_gset2 hx hy hsym, ?_, ?_⟩
  · exact gset_inner_nodup (gset_inner_nodup hnd)
  · have h1 : ∀ p ∈ gset g x y w, ∀ e ∈ p.2, e.1 ∈ keys g :=
      gset_inner_prop (Q := fun n _ => n ∈ keys g) hcl hy
    have h2 : ∀ p ∈ gset (gset g x y w) y x w, ∀ e ∈ p.2, e.1 ∈ keys g :=
      gset_inner_prop (Q := fun n _ => n ∈ keys g) h1 hx
    rw [keys_gset2]
    exact h2

theorem nonneg_gset2 {g : Graph} {x y : Node} {w : Int} (hw : 0 ≤ w) (hg : Nonneg g) :
    Nonneg (gset (gset g x y w) y x w) := by
  unfold Nonneg at hg ⊢
  exact gset_inner_prop (Q := fun _ v => 0 ≤ v)
    (gset_inner_prop (Q := fun _ v => 0 ≤ v) hg hw) hw

/-- `produce_graph` written as the two explicit folds. -/
theorem produce_graph_def (T : Tables) :
    produce_graph T = T.elevators.foldl
      (fun g e => gset (gset g e.2.1 e.2.2 50) e.2.2 e.2.1 50)
      (T.links.foldl
        (fun g l => gset (gset g l.2.1 l.2.2.1 l.2.2.2) l.2.2.1 l.2.1 l.2.2.2)
        (T.places.map (fun p => (p.1, [])))) := rfl

theorem fold_links_props :
    ∀ (ls : List (Nat × Node × Node × Int)) (g : Graph), GProps g →
      (∀ l ∈ ls, l.2.1 ∈ keys g ∧ l.2.2.1 ∈ keys g) →
      GProps (ls.foldl
        (fun g l => gset (gset g l.2.1 l.2.2.1 l.2.2.2) l.2.2.1 l.2.1 l.2.2.2) g) ∧
      keys (ls.foldl
        (fun g l => gset (gset g l.2.1 l.2.2.1 l.2.2.2) l.2.2.1 l.2.1 l.2.2.2) g) = keys g := by
  intro ls
  induction ls with
  | nil => exact fun g hg _ => ⟨hg, rfl⟩
  | cons l ls ih =>
    intro g hg hmem
    obtain ⟨h1, h2⟩ := hmem l (List.mem_cons_self _ _)
    rw [List.foldl_cons]
    have hkeys := keys_gset2 g l.2.1 l.2.2.1 l.2.2.2
    obtain ⟨ih1, ih2⟩ := ih _ (gprops_gset2 h1 h2 hg)
      (fun l' hl' => by
        rw [hkeys]
        exact hmem l' (List.mem_cons_of_mem _ hl'))
    exact ⟨ih1, ih2.trans hkeys⟩

theorem fold_elevs_props :
    ∀ (es : List (String × Node × Node)) (g : Graph), GProps g →
      (∀ e ∈ es, e.2.1 ∈ keys g ∧ e.2.2 ∈ keys g) →
      GProps (es.foldl (fun g e => gset (gset g e.2.1 e.2.2 50) e.2.2 e.2.1 50) g) ∧
      keys (es.foldl (fun g e => gset (gset g e.2.1 e.2.2 50) e.2.2 e.2.1 50) g) = keys g := by
  intro es
  induction es with
  | nil => exact fun g hg _ => ⟨hg, rfl⟩
  | cons e es ih =>
    intro g hg hmem
    obtain ⟨h1, h2⟩ := hmem e (List.mem_cons_self _ _)
    rw [List.foldl_cons]
    have hkeys := keys_gset2 g e.2.1 e.2.2 50
    obtain ⟨ih1, ih2⟩ := ih _ (gprops_gset2 h1 h2 hg)
      (fun e' he' => by
        rw [hkeys]
        exact hmem e' (List.mem_cons_of_mem _ he'))
    exact ⟨ih1, ih2.trans hkeys⟩

theorem fold_links_nonneg :
    ∀ (ls : List (Nat × Node × Node × Int)) (g : Graph), Nonneg g →
      (∀ l ∈ ls, 0 ≤ l.2.2.2) →
      Nonneg (ls.foldl
        (fun g l => gset (gset g l.2.1 l.2.2.1 l.2.2.2) l.2.2.1 l.2.1 l.2.2.2) g) := by
  intro ls
  induction ls with
  | nil => exact fun g hg _ => hg
  | cons l ls ih =>
    intro g hg hmem
    rw [List.foldl_cons]
    exact ih _ (nonneg_gset2 (hmem l (List.mem_cons_self _ _)) hg)
      (fun l' hl' => hmem l' (List.mem_cons_of_mem _ hl'))

theorem fold_elevs_nonneg :
    ∀ (es : List (String × Node × Node)) (g : Graph), Nonneg g →
      Nonneg (es.foldl (fun g e => gset (gset g e.2.1 e.2.2 50) e.2.2 e.2.1 50) g) := by
  intro es
  induction es with
  | nil => exact fun g hg => hg
  | cons e es ih =>
    intro g hg
    rw [List.foldl_cons]
    exact ih _ (nonneg_gset2 (by omega) hg)

theorem init_gprops (ps : List (Node × String)) :
    GProps (ps.map (fun p => (p.1, ([] : List (Node × Int))))) := by
  refine ⟨fun a b => by rw [edgeW_init_none, edgeW_init_none], ?_, ?_⟩
  · intro p hp
    obtain ⟨q, -, rfl⟩ := List.mem_map.mp hp
    simp
  · intro p hp
    obtain ⟨q, -, rfl⟩ := List.mem_map.mp hp
    simp

theorem produce_graph_keys (T : Tables) (hT : TablesWF T) :
    keys (produce_graph T) = placeIds T := by
  rw [produce_graph_def]
  have hinit := keys_init T.places
  obtain ⟨hg1, hk1⟩ := fold_links_props T.links _ (init_gprops T.places)
    (fun l hl => by rw [hinit]; exact hT.2.1 l hl)
  obtain ⟨-, hk2⟩ := fold_elevs_props T.elevators _ hg1
    (fun e he => by rw [hk1, hinit]; exact hT.2.2 e he)
  rw [hk2, hk1, hinit]
  rfl

theorem produce_graph_gprops (T : Tables) (hT : TablesWF T) :
    GProps (produce_graph T) := by
  rw [produce_graph_def]
  have hinit := keys_init T.places
  obtain ⟨hg1, hk1⟩ := fold_links_props T.links _ (init_gprops T.places)
    (fun l hl => by rw [hinit]; exact hT.2.1 l hl)
  obtain ⟨hg2, -⟩ := fold_elevs_props T.elevators _ hg1
    (fun e he => by rw [hk1, hinit]; exact hT.2.2 e he)
  exact hg2

theorem produce_graph_nonneg (T : Tables) (hnn : LinksNonneg T) :
    Nonneg (produce_graph T) := by
  rw [produce_graph_def]
  refine fold_elevs_nonneg T.elevators _ ?_
  refine fold_links_nonneg T.links _ ?_ hnn
  intro p hp
  obtain ⟨q, -, rfl⟩ := List.mem_map.mp hp
  simp

theorem produce_graph_wf (T : Tables) (hT : TablesWF T) : GraphWF (produce_graph T) := by
  obtain ⟨hsym, hnd, hcl⟩ := produce_graph_gprops T hT
  exact ⟨by rw [produce_graph_keys T hT]; exact hT.1, hnd, hcl⟩

/-! ### Isolated places keep an empty neighbour set -/

theorem alookup_init_of_mem (ps : List (Node × String)) (p : Node) :
    p ∈ ps.map Prod.fst →
    alookup (ps.map (fun q => (q.1, ([] : List (Node × Int))))) p = some [] := by
  induction ps with
  | nil =>
    intro h
    simp at h
  | cons q r ih =>
    intro h
    by_cases hq : p = q.1
    · simp [alookup, hq]
    · simp only [List.map_cons, alookup, if_neg hq]
      rw [List.map_cons] at h
      rcases List.mem_cons.mp h with h1 | h1
      · exact absurd h1 hq
      · exact ih h1

theorem alookup_gset2_ne {g : Graph} {x y p : Node} {w : Int}
    (h1 : p ≠ y) (h2 : p ≠ x) :
    alookup (gset (gset g x y w) y x w) p = alookup g p := by
  rw [alookup_gset_ne _ _ _ _ _ h1, alookup_gset_ne _ _ _ _ _ h2]

theorem fold_links_untouched :
    ∀ (ls : List (Nat × Node × Node × Int)) (g : Graph) (p : Node),
      (∀ l ∈ ls, l.2.1 ≠ p ∧ l.2.2.1 ≠ p) →
      alookup (ls.foldl
        (fun g l => gset (gset g l.2.1 l.2.2.1 l.2.2.2) l.2.2.1 l.2.1 l.2.2.2) g) p =
        alookup g p := by
  intro ls
  induction ls with
  | nil => exact fun g p _ => rfl
  | cons l ls ih =>
    intro g p hmem
    obtain ⟨h1, h2⟩ := hmem l (List.mem_cons_self _ _)
    rw [List.foldl_cons, ih _ p (fun l' hl' => hmem l' (List.mem_cons_of_mem _ hl')),
      alookup_gset2_ne (fun hh => h2 hh.symm) (fun hh => h1 hh.symm)]

theorem fold_elevs_untouched :
    ∀ (es : List (String × Node × Node)) (g : Graph) (p : Node),
      (∀ e ∈ es, e.2.1 ≠ p ∧ e.2.2 ≠ p) →
      alookup (es.foldl (fun g e => gset (gset g e.2.1 e.2.2 50) e.2.2 e.2.1 50) g) p =
        alookup g p := by
  intro es
  induction es with
  | nil => exact fun g p _ => rfl
  | cons e es ih =>
    intro g p hmem
    obtain ⟨h1, h2⟩ := hmem e (List.mem_cons_self _ _)
    rw [List.foldl_cons, ih _ p (fun e' he' => hmem e' (List.mem_cons_of_mem _ he')),
      alookup_gset2_ne (fun hh => h2 hh.symm) (fun hh => h1 hh.symm)]

/-- A declared place mentioned by no link and no elevator keeps `{}` as its
neighbour dictionary. -/
theorem produce_graph_isolated (T : Tables) {p : Node} (hp : p ∈ placeIds T)
    (hl : ∀ l ∈ T.links, l.2.1 ≠ p ∧ l.2.2.1 ≠ p)
    (he : ∀ e ∈ T.elevators, e.2.1 ≠ p ∧ e.2.2 ≠ p) :
    alookup (produce_graph T) p = some [] := by
  rw [produce_graph_def, fold_elevs_untouched T.elevators _ p he,
    fold_links_untouched T.links _ p hl]
  exact alookup_init_of_mem T.places p hp

/-! ## Behaviour of the predecessor walk and the planner's error paths -/

theorem traceLoop_start (ks : List Node) (cf : Node → Option Node) (start : Node)
    (n : Nat) (acc : List Node) :
    traceLoop ks cf start (n + 1) start acc = some (.ok (acc ++ [start])) := by
  simp [traceLoop]

theorem traceLoop_none_err (ks : List Node) (cf : Node → Option Node) (start : Node)
    (n : Nat) {step : Node} (acc : List Node) (h1 : step ≠ start) (h2 : step ∈ ks)
    (h3 : cf step = none) :
    traceLoop ks cf start (n + 1) step acc = some (.error (.keyError .noneKey)) := by
  simp [traceLoop, h1, h2, h3]

theorem traceLoop_key_err (ks : List Node) (cf : Node → Option Node) (start : Node)
    (n : Nat) {step : Node} (acc : List Node) (h1 : step ≠ start) (h2 : step ∉ ks) :
    traceLoop ks cf start (n + 1) step acc = some (.error (.keyError (.intKey step))) := by
  simp [traceLoop, h1, h2]

theorem traceLoop_step (ks : List Node) (cf : Node → Option Node) (start : Node)
    (n : Nat) {step u : Node} (acc : List Node) (h1 : step ≠ start) (h2 : step ∈ ks)
    (h3 : cf step = some u) :
    traceLoop ks cf start (n + 1) step acc = traceLoop ks cf start n u (acc ++ [step]) := by
  simp [traceLoop, h1, h2, h3]

theorem routeF_err_of_drun {T : Tables} {s e : Node} {n : Nat} {er : PyErr}
    (h : drun (produce_graph T) n (dinit s) = some (.error er)) :
    routeF T s e n = some (.error er) := by
  unfold routeF
  rw [h]

theorem routeF_trace_err {T : Tables} {s e : Node} {n : Nat} {st : DState}
    (h1 : drun (produce_graph T) n (dinit s) = some (.ok st)) {er : PyErr}
    (h2 : traceLoop (dkeys (produce_graph T) s) st.cf s n e [] = some (.error er)) :
    routeF T s e n = some (.error er) := by
  unfold routeF
  simp only [h1, h2]

theorem routeF_trace_ok {T : Tables} {s e : Node} {n : Nat} {st : DState}
    (h1 : drun (produce_graph T) n (dinit s) = some (.ok st)) {l : List Node}
    (h2 : traceLoop (dkeys (produce_graph T) s) st.cf s n e [] = some (.ok l)) :
    routeF T s e n = some (.ok l.reverse) := by
  unfold routeF
  simp only [h1, h2]

theorem magic_err_of_routeF {T : Tables} {s e : Node} {n : Nat} {er : PyErr}
    (h : routeF T s e n = some (.error er)) :
    magic_route_finder T s e n = some (.error er) := by
  unfold magic_route_finder
  rw [h]

theorem hopsOf_missing {li : List ((Node × Node) × LinkId)} {a b : Node} {r : List Node}
    (h : alookup li (a, b) = none) :
    hopsOf li (a :: b :: r) = .error (.keyError (.pairKey a b)) := by
  unfold hopsOf
  rw [h]

/-- Popping the initial queue always yields the source with priority `0`. -/
theorem popMin_dinit (s : Node) : popMin (dinit s).queue = some ((0, s), []) := by
  show popMin [((0 : Int), s)] = some ((0, s), [])
  unfold popMin qminFold
  simp [List.erase_cons_head]

/-- An unknown starting place makes `dijkstra` raise `KeyError` on its first
iteration, looking up `graph[current_node]`. -/
theorem drun_invalid_start {g : Graph} {s : Node} (hs : s ∉ keys g) (n : Nat) :
    drun g (n + 1) (dinit s) = some (.error (.keyError (.intKey s))) := by
  have hadj : alookup g s = none := alookup_eq_none.mpr hs
  exact drun_keyerr g n (popMin_dinit s) hadj

/-- With well-formed tables, an unknown start id surfaces as
`KeyError(start)` from inside the shortest-path search, for every fuel
value that allows at least one iteration and every requested end. -/
theorem magic_invalid_start {T : Tables} (hT : TablesWF T) {s : Node}
    (hs : s ∉ placeIds T) (e : Node) (n : Nat) :
    magic_route_finder T s e (n + 1) = some (.error (.keyError (.intKey s))) := by
  have hs' : s ∉ keys (produce_graph T) := by
    rw [produce_graph_keys T hT]
    exact hs
  exact magic_err_of_routeF (routeF_err_of_drun (drun_invalid_start hs' n))

/-- With well-formed tables and non-negative link weights, an unknown end id
surfaces as `KeyError(end)` from the predecessor walk. -/
theorem magic_invalid_end {T : Tables} (hT : TablesWF T) (hnn : LinksNonneg T)
    {s e : Node} (hs : s ∈ placeIds T) (he : e ∉ placeIds T) :
    ∃ n, magic_route_finder T s e n = some (.error (.keyError (.intKey e))) := by
  have wf := produce_graph_wf T hT
  have nn := produce_graph_nonneg T hnn
  have hs' : s ∈ keys (produce_graph T) := by
    rw [produce_graph_keys T hT]
    exact hs
  obtain ⟨n₁, st, hrun, inv, hq⟩ := dijkstra_completes wf nn hs'
  have hrun' : drun (produce_graph T) (n₁ + 1) (dinit s) = some (.ok st) :=
    drun_mono _ n₁ 1 hrun
  have hes : e ≠ s := fun hh => he (hh ▸ hs)
  have heks : e ∉ dkeys (produce_graph T) s := by
    unfold dkeys
    rw [if_pos hs', produce_graph_keys T hT]
    exact he
  have htr := traceLoop_key_err (dkeys (produce_graph T) s) st.cf s n₁ [] hes heks
  exact ⟨n₁ + 1, magic_err_of_routeF (routeF_trace_err hrun' htr)⟩

/-- An unreachable (but declared) destination makes the predecessor walk
look up the `None` predecessor, which Python turns into `KeyError(None)`:
the walk terminates, but with a generic key error rather than a dedicated
no-route exception. -/
theorem magic_unreachable {T : Tables} (hT : TablesWF T) (hnn : LinksNonneg T)
    {s e : Node} (hs : s ∈ placeIds T) (he : e ∈ placeIds T)
    (hur : ¬Reachable (produce_graph T) s e) :
    ∃ n, magic_route_finder T s e n = some (.error (.keyError .noneKey)) := by
  have wf := produce_graph_wf T hT
  have nn := produce_graph_nonneg T hnn
  have hs' : s ∈ keys (produce_graph T) := by
    rw [produce_graph_keys T hT]
    exact hs
  have he' : e ∈ keys (produce_graph T) := by
    rw [produce_graph_keys T hT]
    exact he
  obtain ⟨n₁, st, hrun, inv, hq⟩ := dijkstra_completes wf nn hs'
  have hrun' : drun (produce_graph T) (n₁ + 1) (dinit s) = some (.ok st) :=
    drun_mono _ n₁ 1 hrun
  obtain ⟨-, hcfe⟩ := (final_correct inv hq).2 e hur
  have hes : e ≠ s := by
    rintro rfl
    exact hur (reachable_self _ _)
  have heks : e ∈ dkeys (produce_graph T) s := by
    unfold dkeys
    rw [if_pos hs']
    exact he'
  have htr := traceLoop_none_err (dkeys (produce_graph T) s) st.cf s n₁ [] hes heks hcfe
  exact ⟨n₁ + 1, magic_err_of_routeF (routeF_trace_err hrun' htr)⟩

/-- In a symmetric graph, a node whose neighbour dictionary is empty cannot
be reached by any walk from anywhere else. -/
theorem walk_to_isolated {g : Graph} (hsym : Sym g) {e : Node}
    (hiso : alookup g e = some []) :
    ∀ {u x : Node} {c : Int}, WalkCost g u x c → x = e → u = e := by
  have hnone : ∀ b, edgeW g e b = none := by
    intro b
    unfold edgeW
    rw [hiso]
    rfl
  intro u x c hw
  induction hw with
  | nil v => exact fun h => h
  | cons he hw ih =>
    rename_i u₀ v₀ x₀ w c₀
    intro hx
    have hv : v₀ = e := ih hx
    have h1 : edgeW g u₀ e = some w := hv ▸ he
    have h2 : edgeW g e u₀ = some w := (hsym e u₀).trans h1
    rw [hnone u₀] at h2
    cases h2

theorem unreachable_of_isolated {g : Graph} (hsym : Sym g) {e : Node}
    (hiso : alookup g e = some []) {s : Node} (hse : s ≠ e) :
    ¬Reachable g s e := by
  rintro ⟨c, hw⟩
  exact hse (walk_to_isolated hsym hiso hw rfl)

instance {ε α : Type} [DecidableEq ε] [DecidableEq α] : DecidableEq (Except ε α)
  | .ok a, .ok b =>
    if h : a = b then isTrue (by rw [h]) else isFalse (fun hh => h (Except.ok.inj hh))
  | .ok _, .error _ => isFalse (fun hh => Except.noConfusion hh)
  | .error _, .ok _ => isFalse (fun hh => Except.noConfusion hh)
  | .error e, .error f =>
    if h : e = f then isTrue (by rw [h]) else isFalse (fun hh => h (Except.error.inj hh))

/-! # The claims -/

/-- C1: For every graph whose edge weights are all non-negative and every
source node in the graph, `dijkstra(graph, source)` returns
`(distances, predecessors)` such that for every node reachable from the
source, `distances[node]` is the true shortest-path cost and following
predecessor links from the node back to the source reconstructs a
shortest path (the reversed predecessor chain is a path of exactly that
cost), while every unreachable node retains infinite distance and a
`None` predecessor.  The well-formedness hypotheses state what every
Python dict-of-dicts graph satisfies (unique keys) plus closedness, which
the relaxation loop needs to avoid `KeyError`. -/
theorem claim_C1 (g : Graph) (s : Node) (wf : GraphWF g) (nn : Nonneg g)
    (hs : s ∈ keys g) :
    ∃ n st, drun g n (dinit s) = some (.ok st) ∧
      (∀ v, Reachable g s v → ∃ d : Int, st.dist v = (d : WithTop Int) ∧
        IsShortest g s v d ∧ ∃ l, Chain st.cf s v l ∧ PathCost g l.reverse d) ∧
      (∀ v, ¬Reachable g s v → st.dist v = ⊤ ∧ st.cf v = none) := by
  obtain ⟨n, st, hrun, inv, hq⟩ := dijkstra_completes wf nn hs
  exact ⟨n, st, hrun, (final_correct inv hq).1, (final_correct inv hq).2⟩

/-- A small concrete graph for the C1 witness: `0 — 1` with weight `2`,
and an isolated node `2`. -/
def gWitness : Graph := [(0, [(1, 2)]), (1, [(0, 2)]), (2, [])]

theorem claim_C1_witness :
    GraphWF gWitness ∧ Nonneg gWitness ∧ 0 ∈ keys gWitness ∧
      (∃ n st, drun gWitness n (dinit 0) = some (.ok st) ∧
        (∀ v, Reachable gWitness 0 v → ∃ d : Int, st.dist v = (d : WithTop Int) ∧
          IsShortest gWitness 0 v d ∧ ∃ l, Chain st.cf 0 v l ∧ PathCost gWitness l.reverse d) ∧
        (∀ v, ¬Reachable gWitness 0 v → st.dist v = ⊤ ∧ st.cf v = none)) :=
  ⟨by decide, by decide, by decide, claim_C1 gWitness 0 (by decide) (by decide) (by decide)⟩

/-- Executable check used by C2 on one pair of shipped places: the traced
route starts at `s`, ends at `e`, walks only edges of the built graph, and
its edge-weight sum equals the dijkstra distance of `e` from `s`. -/
def c2check (s e : Node) : Bool :=
  match routeF shipped s e 100, drun (produce_graph shipped) 100 (dinit s) with
  | some (.ok r), some (.ok st) =>
    r.head? == some s && r.getLast? == some e &&
    (match pathCost? (produce_graph shipped) r with
     | some c => st.dist e == ((c : Int) : WithTop Int)
     | none => false)
  | _, _ => false

/-- C2: For every pair of places in the (shipped) place table — all of which
are reachable from each other — the route traced from `start` to `end`
begins with `start`, ends with `end`, every consecutive pair of it is an
edge of the built graph, and the edge-weight sum along it equals the
distance `dijkstra` computes for `end` from `start`.  Fuel 100 is ample:
every shipped run finishes within 15 loop iterations. -/
theorem claim_C2 : ∀ s ∈ placeIds shipped, ∀ e ∈ placeIds shipped, c2check s e = true := by
  decide

theorem claim_C2_witness :
    587 ∈ placeIds shipped ∧ 148 ∈ placeIds shipped ∧ c2check 587 148 = true :=
  ⟨by decide, by decide, claim_C2 587 (by decide) 148 (by decide)⟩

/-- C3: Every graph built by `produce_graph` from well-formed tables has one
adjacency entry per declared place (its key list is exactly the place
list; a place on no link and no elevator keeps an empty neighbour set),
and its adjacency is symmetric: the directed weight lookup is the same
function in both directions, for ordinary links and elevator edges alike. -/
theorem claim_C3 (T : Tables) (hT : TablesWF T) :
    keys (produce_graph T) = placeIds T ∧
    (∀ a b : Node, edgeW (produce_graph T) a b = edgeW (produce_graph T) b a) ∧
    (∀ p ∈ placeIds T, (∀ l ∈ T.links, l.2.1 ≠ p ∧ l.2.2.1 ≠ p) →
      (∀ e ∈ T.elevators, e.2.1 ≠ p ∧ e.2.2 ≠ p) →
      alookup (produce_graph T) p = some []) :=
  ⟨produce_graph_keys T hT, (produce_graph_gprops T hT).1,
   fun _ hp hl he => produce_graph_isolated T hp hl he⟩

theorem claim_C3_witness :
    TablesWF shipped ∧
      (keys (produce_graph shipped) = placeIds shipped ∧
       (∀ a b : Node, edgeW (produce_graph shipped) a b = edgeW (produce_graph shipped) b a) ∧
       (∀ p ∈ placeIds shipped, (∀ l ∈ shipped.links, l.2.1 ≠ p ∧ l.2.2.1 ≠ p) →
         (∀ e ∈ shipped.elevators, e.2.1 ≠ p ∧ e.2.2 ≠ p) →
         alookup (produce_graph shipped) p = some [])) :=
  ⟨by decide, claim_C3 shipped (by decide)⟩

/-- Concrete tables with no links at all: place `2` is unreachable from `1`. -/
def tablesNoEdges : Tables := ⟨[(1, "A"), (2, "B")], [], []⟩

theorem tablesNoEdges_unreachable : ¬Reachable (produce_graph tablesNoEdges) 1 2 :=
  unreachable_of_isolated (produce_graph_gprops tablesNoEdges (by decide)).1
    (show alookup (produce_graph tablesNoEdges) 2 = some [] from rfl) (by decide)

/-- Concrete tables whose graph has two components: a link `1 — 2` and an
isolated place `3`. -/
def tablesSplit : Tables := ⟨[(1, "A"), (2, "B"), (3, "C")], [(10, 1, 2, 5)], []⟩

theorem tablesSplit_unreachable : ¬Reachable (produce_graph tablesSplit) 1 3 :=
  unreachable_of_isolated (produce_graph_gprops tablesSplit (by decide)).1
    (show alookup (produce_graph tablesSplit) 3 = some [] from rfl) (by decide)

/-- C4 (counterexample): at the concrete unreachable pair `1 → 2` of
`tablesNoEdges` the route tracer does terminate, but it raises
`KeyError(None)` — looking the `None` predecessor up as a key — rather
than any explicit `UnreachableDestination` error; no such exception class
exists in the code, so the claimed error is never produced. -/
theorem claim_C4_counterexample :
    ¬Reachable (produce_graph tablesNoEdges) 1 2 ∧
    magic_route_finder tablesNoEdges 1 2 5 = some (.error (.keyError .noneKey)) ∧
    ∀ k, PyErr.keyError k ≠ PyErr.unreachableDestination :=
  ⟨tablesNoEdges_unreachable, by decide, fun k h => PyErr.noConfusion h⟩

/-- C4 (amended): For every pair of declared places with `end` unreachable
from `start` in the graph built from well-formed tables with non-negative
link weights, tracing the route terminates (some finite fuel yields a
result) and raises a key-lookup error — `KeyError(None)` from looking up
the `None` predecessor — instead of an explicit UnreachableDestination
error. -/
theorem claim_C4_amended (T : Tables) (hT : TablesWF T) (hnn : LinksNonneg T)
    {s e : Node} (hs : s ∈ placeIds T) (he : e ∈ placeIds T)
    (hur : ¬Reachable (produce_graph T) s e) :
    ∃ n, magic_route_finder T s e n = some (.error (.keyError .noneKey)) :=
  magic_unreachable hT hnn hs he hur

theorem claim_C4_witness :
    TablesWF tablesNoEdges ∧ LinksNonneg tablesNoEdges ∧
    1 ∈ placeIds tablesNoEdges ∧ 2 ∈ placeIds tablesNoEdges ∧
    ¬Reachable (produce_graph tablesNoEdges) 1 2 ∧
    ∃ n, magic_route_finder tablesNoEdges 1 2 n = some (.error (.keyError .noneKey)) :=
  ⟨by decide, by decide, by decide, by decide, tablesNoEdges_unreachable,
   claim_C4_amended tablesNoEdges (by decide) (by decide) (by decide) (by decide)
     tablesNoEdges_unreachable⟩

/-- C5 (counterexample): the identifier `2` is not in the place table, yet
the planner performs no upfront validation and raises no `InvalidPlace`:
with `2` as start it fails with `KeyError(2)` inside `dijkstra`'s
adjacency lookup (after the graph has been built and the loop begun), and
with `2` as end it fails with `KeyError(2)` in the predecessor walk after
the whole shortest-path search has already run. -/
theorem claim_C5_counterexample :
    2 ∉ placeIds shipped ∧
    magic_route_finder shipped 2 587 5 = some (.error (.keyError (.intKey 2))) ∧
    magic_route_finder shipped 587 2 100 = some (.error (.keyError (.intKey 2))) ∧
    ∀ k, PyErr.keyError k ≠ PyErr.invalidPlace :=
  ⟨by decide, by decide, by decide, fun k h => PyErr.noConfusion h⟩

/-- C5 (amended): For identifiers outside the place table the planner
raises a `KeyError` carrying the offending identifier, during planning
rather than before it: an unknown start fails in `dijkstra`'s
`graph[current_node]` lookup on the very first loop iteration (for every
fuel allowing at least one iteration), and an unknown end fails in the
predecessor walk after the search completes. -/
theorem claim_C5_amended (T : Tables) (hT : TablesWF T) (hnn : LinksNonneg T)
    (s e : Node) :
    (s ∉ placeIds T → ∀ n, magic_route_finder T s e (n + 1) =
      some (.error (.keyError (.intKey s)))) ∧
    (s ∈ placeIds T → e ∉ placeIds T →
      ∃ n, magic_route_finder T s e n = some (.error (.keyError (.intKey e)))) :=
  ⟨fun hs n => magic_invalid_start hT hs e n,
   fun hs he => magic_invalid_end hT hnn hs he⟩

theorem claim_C5_witness :
    (2 ∉ placeIds shipped ∧
      magic_route_finder shipped 2 587 (4 + 1) = some (.error (.keyError (.intKey 2)))) ∧
    (587 ∈ placeIds shipped ∧ 2 ∉ placeIds shipped ∧
      ∃ n, magic_route_finder shipped 587 2 n = some (.error (.keyError (.intKey 2)))) :=
  ⟨⟨by decide, (claim_C5_amended shipped (by decide) (by decide) 2 587).1 (by decide) 4⟩,
   ⟨by decide, by decide,
    (claim_C5_amended shipped (by decide) (by decide) 587 2).2 (by decide) (by decide)⟩⟩

/-- C6 (counterexample): both planner failure conditions surface through
the same generic error family.  At the concrete unreachable pair
`1 → 3` of `tablesSplit` the "no route" condition raises
`KeyError(None)`, and a missing consecutive pair raises
`KeyError((place, place))` from the reverse-lookup — the same `KeyError`
constructor, not the two dedicated exception types the claim names
(neither `UnreachableDestination` nor `InconsistentGraphData` exists in
the code). -/
theorem claim_C6_counterexample :
    ¬Reachable (produce_graph tablesSplit) 1 3 ∧
    magic_route_finder tablesSplit 1 3 100 = some (.error (.keyError .noneKey)) ∧
    hopsOf (link_index tablesSplit) [2, 3] = .error (.keyError (.pairKey 2 3)) ∧
    (PyErr.keyError .noneKey ≠ PyErr.unreachableDestination) ∧
    (PyErr.keyError (.pairKey 2 3) ≠ PyErr.inconsistentGraphData) :=
  ⟨tablesSplit_unreachable, by decide, by decide,
   fun h => PyErr.noConfusion h, fun h => PyErr.noConfusion h⟩

/-- C6 (amended): the two failure conditions both surface as the generic
`KeyError`; they are distinguishable only through the error's key payload
— `None` for an unreachable destination, a `(place, place)` pair for a
route edge missing from the reverse lookup — not as distinct error
types. -/
theorem claim_C6_amended (T : Tables) (hT : TablesWF T) (hnn : LinksNonneg T)
    {s e : Node} (hs : s ∈ placeIds T) (he : e ∈ placeIds T)
    (hur : ¬Reachable (produce_graph T) s e) :
    (∃ n, magic_route_finder T s e n = some (.error (.keyError .noneKey))) ∧
    (∀ (li : List ((Node × Node) × LinkId)) (a b : Node) (r : List Node),
      alookup li (a, b) = none →
      hopsOf li (a :: b :: r) = .error (.keyError (.pairKey a b))) ∧
    (∀ a b : Node, PyKey.noneKey ≠ PyKey.pairKey a b) :=
  ⟨magic_unreachable hT hnn hs he hur, fun _ _ _ _ h => hopsOf_missing h,
   fun _ _ h => PyKey.noConfusion h⟩

theorem claim_C6_witness :
    TablesWF tablesSplit ∧ LinksNonneg tablesSplit ∧
    1 ∈ placeIds tablesSplit ∧ 3 ∈ placeIds tablesSplit ∧
    ¬Reachable (produce_graph tablesSplit) 1 3 ∧
    ((∃ n, magic_route_finder tablesSplit 1 3 n = some (.error (.keyError .noneKey))) ∧
     (∀ (li : List ((Node × Node) × LinkId)) (a b : Node) (r : List Node),
       alookup li (a, b) = none →
       hopsOf li (a :: b :: r) = .error (.keyError (.pairKey a b))) ∧
     (∀ a b : Node, PyKey.noneKey ≠ PyKey.pairKey a b)) :=
  ⟨by decide, by decide, by decide, by decide, tablesSplit_unreachable,
   claim_C6_amended tablesSplit (by decide) (by decide) (by decide) (by decide)
     tablesSplit_unreachable⟩

/-- Executable check used by C7: pairs each hop of the produced hop list
with the corresponding consecutive pair of the traced route, demanding
that the hop's link identifier is exactly the reverse-lookup entry for
that ordered pair and that the hop's second component is the pair's
destination. -/
def c7pairs : List Node → List (LinkId × Node) → Bool
  | [_], [] => true
  | a :: b :: r, (lid, dest) :: hs =>
    (alookup (link_index shipped) (a, b) == some lid) && (dest == b) &&
      c7pairs (b :: r) hs
  | _, _ => false

def c7check (s e : Node) : Bool :=
  match routeF shipped s e 100, magic_route_finder shipped s e 100 with
  | some (.ok r), some (.ok h) => (h.length + 1 == r.length) && c7pairs r h
  | _, _ => false

/-- C7: the reverse lookup covers both directions of every ordinary link
(mapped to the link's numeric identifier) and both directions of every
elevator (mapped to the `'elevator'` sentinel), and for every pair of
shipped places (all of which are reachable) the hop sequence has exactly
`N − 1` hops for an `N`-place route, one per consecutive pair, each
carrying that pair's reverse-lookup identifier and destination place. -/
theorem claim_C7 :
    (∀ l ∈ MHL_LINKS, alookup (link_index shipped) (l.2.1, l.2.2.1) = some (.route l.1) ∧
      alookup (link_index shipped) (l.2.2.1, l.2.1) = some (.route l.1)) ∧
    (∀ ev ∈ ELEVATORS, alookup (link_index shipped) (ev.2.1, ev.2.2) = some .elevator ∧
      alookup (link_index shipped) (ev.2.2, ev.2.1) = some .elevator) ∧
    (∀ s ∈ placeIds shipped, ∀ e ∈ placeIds shipped, c7check s e = true) := by
  decide

theorem claim_C7_witness :
    (111, 588, 1151, 2606) ∈ MHL_LINKS ∧
    (alookup (link_index shipped) (588, 1151) = some (.route 111) ∧
      alookup (link_index shipped) (1151, 588) = some (.route 111)) ∧
    ("Auberge", 587, 588) ∈ ELEVATORS ∧
    (alookup (link_index shipped) (587, 588) = some .elevator ∧
      alookup (link_index shipped) (588, 587) = some .elevator) ∧
    587 ∈ placeIds shipped ∧ 148 ∈ placeIds shipped ∧ c7check 587 148 = true :=
  ⟨by decide, claim_C7.1 (111, 588, 1151, 2606) (by decide), by decide,
   claim_C7.2.1 ("Auberge", 587, 588) (by decide), by decide, by decide,
   claim_C7.2.2 587 (by decide) 148 (by decide)⟩

/-- A well-formed graph with non-negative weights on which the
priority-queue loop runs more iterations than the graph has nodes:
`0 — 1` costs `10`, `0 — 2` costs `1`, `2 — 1` costs `1`, so node `1` is
relaxed twice and popped twice. -/
def gLazy : Graph := [(0, [(1, 10), (2, 1)]), (1, [(0, 10), (2, 1)]), (2, [(0, 1), (1, 1)])]

/-- C8 (counterexample): the loop is not bounded by the node count.
`drun` spends one fuel unit per `while` iteration, plus one for the final
empty-queue test, so finishing within `k` iterations is
`(drun g (k + 1) …).isSome`.  On `gLazy` — well-formed, non-negative
weights, 3 nodes — the run is still unfinished after 3 iterations
(fuel `3 + 1` returns `none`) and needs a 4th iteration to drain the
queue. -/
theorem claim_C8_counterexample :
    GraphWF gLazy ∧ Nonneg gLazy ∧ (keys gLazy).length = 3 ∧
    (drun gLazy ((keys gLazy).length + 1) (dinit 0)).isNone = true ∧
    (drun gLazy 5 (dinit 0)).isSome = true := by
  decide

/-- C8 (amended): the iteration count can exceed the node count, but for
every well-formed graph with non-negative weights and every source in the
graph the loop does terminate: some finite fuel completes the run.  (With
negative-weight cycles the code has no such guarantee.) -/
theorem claim_C8_amended (g : Graph) (s : Node) (wf : GraphWF g) (nn : Nonneg g)
    (hs : s ∈ keys g) : ∃ n st, drun g n (dinit s) = some (.ok st) := by
  obtain ⟨n, st, h, -, -⟩ := dijkstra_completes wf nn hs
  exact ⟨n, st, h⟩

theorem claim_C8_witness :
    GraphWF gLazy ∧ Nonneg gLazy ∧ 0 ∈ keys gLazy ∧
    ∃ n st, drun gLazy n (dinit 0) = some (.ok st) :=
  ⟨by decide, by decide, by decide, claim_C8_amended gLazy 0 (by decide) (by decide) (by decide)⟩

/-- C9: planning a route from any shipped place to itself succeeds with the
single-element traced route `[p]` and an empty hop sequence. -/
theorem claim_C9 : ∀ p ∈ placeIds shipped,
    routeF shipped p p 100 = some (.ok [p]) ∧
    magic_route_finder shipped p p 100 = some (.ok []) := by
  decide

theorem claim_C9_witness :
    587 ∈ placeIds shipped ∧
    routeF shipped 587 587 100 = some (.ok [587]) ∧
    magic_route_finder shipped 587 587 100 = some (.ok []) :=
  ⟨by decide, (claim_C9 587 (by decide)).1, (claim_C9 587 (by decide)).2⟩

/-- C10: every ordinary link weight in the shipped link table is strictly
positive, both directions of every shipped elevator edge carry weight
`50`, and consequently every edge weight in the graph built from the
shipped tables is strictly positive — so the non-negativity precondition
of Dijkstra holds for the shipped configuration. -/
theorem claim_C10 :
    (∀ l ∈ MHL_LINKS, 0 < l.2.2.2) ∧
    (∀ ev ∈ ELEVATORS, edgeW (produce_graph shipped) ev.2.1 ev.2.2 = some 50 ∧
      edgeW (produce_graph shipped) ev.2.2 ev.2.1 = some 50) ∧
    (∀ p ∈ produce_graph shipped, ∀ e ∈ p.2, 0 < e.2) := by
  decide

theorem claim_C10_witness :
    (111, 588, 1151, 2606) ∈ MHL_LINKS ∧ (0 : Int) < 2606 ∧
    ("Auberge", 587, 588) ∈ ELEVATORS ∧
    (edgeW (produce_graph shipped) 587 588 = some 50 ∧
      edgeW (produce_graph shipped) 588 587 = some 50) :=
  ⟨by decide, claim_C10.1 (111, 588, 1151, 2606) (by decide), by decide,
   claim_C10.2.1 ("Auberge", 587, 588) (by decide)⟩

end MkTrain
